import Mathlib

/-!
Shallow embedding of the retrieval and ranking core of the `osgrep`
semantic code-search engine, together with proofs checking the
natural-language specification against the code.

Scores are modelled over `ℚ` (the TypeScript code computes over IEEE
doubles; every claim checked here is about the exact arithmetic shape of
the ranking pipeline, so exact rationals are the faithful shallow
embedding).  JavaScript `Map` objects are modelled as association lists
that preserve insertion order, since the code iterates maps in insertion
order before a stable sort.  Fallible external calls (the vector store,
the full-text index) are modelled with `Except`.
-/

namespace Osgrep

/-- A row of the vector store as consumed by `Searcher.search`
(`src/store/types` / `part_004`).  `id = ""` models a missing/empty id
(JavaScript falsiness of `doc.id`), `end_line = 0` models a missing
`end_line`, and `pooled_colbert_48d = none` models a missing pooled
vector. -/
structure VectorRecord where
  id : String
  path : String
  chunk_index : ℕ
  content : String
  display_text : String
  context_prev : String
  context_next : String
  start_line : ℕ
  end_line : ℕ
  chunk_type : String
  is_anchor : Bool
  hash : String
  pooled_colbert_48d : Option (List ℚ)
deriving DecidableEq, Repr

/-- Metadata block of a public chunk (`mapRecordToChunk`). -/
structure ChunkMetadata where
  path : String
  hash : String
  is_anchor : Bool
deriving DecidableEq, Repr

/-- Generated metadata block of a public chunk (`mapRecordToChunk`). -/
structure GeneratedMetadata where
  start_line : ℕ
  num_lines : ℕ
  type : String
deriving DecidableEq, Repr

/-- Public chunk shape returned by `search` (`mapRecordToChunk`). -/
structure ChunkType where
  text : String
  score : ℚ
  metadata : ChunkMetadata
  generated_metadata : GeneratedMetadata
deriving DecidableEq, Repr

/-- `SearchResponse` of `part_004`: the `{ data: [...] }` envelope. -/
structure SearchResponse where
  data : List ChunkType
deriving DecidableEq, Repr

/-- `Searcher.mapRecordToChunk`: `start_line || 0`, `end_line || startLine`,
`display_text || content`, `Math.max(1, endLine - startLine + 1)`. -/
def mapRecordToChunk (record : VectorRecord) (score : ℚ) : ChunkType :=
  let fullText :=
    record.context_prev ++
      (if record.display_text = "" then record.content else record.display_text) ++
      record.context_next ++ " "
  let startLine := record.start_line
  let endLine := if record.end_line = 0 then startLine else record.end_line
  { text := fullText
    score := score
    metadata :=
      { path := record.path, hash := record.hash, is_anchor := record.is_anchor }
    generated_metadata :=
      { start_line := startLine
        num_lines := max 1 (endLine - startLine + 1)
        type := record.chunk_type } }

/-!
## Environment knobs

`Number.parseInt` / `Number.parseFloat` of an environment variable either
yields a finite number or `NaN`; we model the parse outcome as
`Option ℤ` / `Option ℚ` (`none` = unset or unparsable).
-/

/-- Outcome of parsing the tuning environment variables
(`process.env.OSGREP_*` reads in `part_004`). -/
structure Env where
  preK : Option ℤ
  stage1K : Option ℤ
  stage2K : Option ℤ
  rerankTop : Option ℤ
  maxPerFile : Option ℤ
  rerankBlend : Option ℚ
  anchorPenalty : Option ℚ
  codeBoost : Option ℚ
  testPenalty : Option ℚ
  docPenalty : Option ℚ
deriving DecidableEq, Repr

/-- All environment variables unset: the defaults. -/
def Env.default : Env :=
  ⟨none, none, none, none, none, none, none, none, none, none⟩

/-- `Number.isFinite(v) && v > 0 ? v : dflt` — the guard used for
`OSGREP_STAGE1_K`, `OSGREP_STAGE2_K`, `OSGREP_RERANK_TOP`,
`OSGREP_MAX_PER_FILE` (and `OSGREP_PRE_K`, whose default is computed). -/
def intKnob (v : Option ℤ) (dflt : ℕ) : ℕ :=
  match v with
  | some n => if 0 < n then n.toNat else dflt
  | none => dflt

/-- `Number.isFinite(envBlend) && envBlend >= 0 ? envBlend : 0.5` — the
guard used for `OSGREP_RERANK_BLEND`. -/
def blendKnob (v : Option ℚ) : ℚ :=
  match v with
  | some q => if 0 ≤ q then q else 1/2
  | none => 1/2

/-- `Number.parseFloat(raw) || dflt` — the guard used for
`OSGREP_ANCHOR_PENALTY`, `OSGREP_CODE_BOOST`, `OSGREP_TEST_PENALTY`,
`OSGREP_DOC_PENALTY`: `NaN` and `0` are falsy and fall back, every
other parsed value (negative included) is used as-is. -/
def multKnob (v : Option ℚ) (dflt : ℚ) : ℚ :=
  match v with
  | some q => if q = 0 then dflt else q
  | none => dflt

/-- `PRE_RERANK_K`: `envPreK` when finite and positive, else
`Math.max(finalLimit * 5, 500)`. -/
def preRerankK (env : Env) (finalLimit : ℕ) : ℕ :=
  intKnob env.preK (max (finalLimit * 5) 500)

/-!
## Structure boost (`Searcher.applyStructureBoost`)

String primitives are embedded at the character-list level
(`String.toLower`, `endsWith`, `includes` and splitting on `/` become
structurally recursive functions over `String.data`) so that every
predicate evaluates by kernel reduction.
-/

/-- `toLowerCase()`: lowercase every character. -/
def toLowerStr (s : String) : String := ⟨s.data.map Char.toLower⟩

/-- `endsWith(p)` as a character-list suffix test. -/
def strEndsWith (s p : String) : Bool := p.data.isSuffixOf s.data

/-- Split a character list at `/` (for the path-segment regex). -/
def splitSlash : List Char → List Char → List (List Char)
  | [], cur => [cur.reverse]
  | c :: rest, cur =>
      if c = '/' then cur.reverse :: splitSlash rest []
      else splitSlash rest (c :: cur)

/-- The `/`-separated segments of a path. -/
def pathSegments (s : String) : List String :=
  (splitSlash s.data []).map String.mk

/-- Does `l` start with `needle`? -/
def startsWithChars : List Char → List Char → Bool
  | _, [] => true
  | [], _ :: _ => false
  | c :: cs, d :: ds => c = d && startsWithChars cs ds

/-- Does `l` contain `needle` as a contiguous substring (`includes`)? -/
def hasSubChars : List Char → List Char → Bool
  | [], needle => needle.isEmpty
  | l@(_ :: rest), needle => startsWithChars l needle || hasSubChars rest needle

/-- `includes(sub)` on strings. -/
def strContainsSub (s sub : String) : Bool := hasSubChars s.data sub.data

/-- Chunk types boosted by `applyStructureBoost` (the `boosted` array). -/
def boostedTypes : List String :=
  ["function", "class", "method", "interface", "type_alias"]

/-- The test-path regex `(^|\/)(__tests__|tests?|specs?)(\/|$)` on the
lowercased path: some `/`-separated segment is one of
`__tests__`, `test`, `tests`, `spec`, `specs`. -/
def segmentIsTest (seg : String) : Bool :=
  seg = "__tests__" || seg = "test" || seg = "tests" || seg = "spec" || seg = "specs"

/-- The filename regex `\.(test|spec)\.[cm]?[jt]sx?$` spelled out as the
finite list of suffixes it accepts. -/
def testFileSuffixes : List String :=
  (["test", "spec"].flatMap fun stem =>
    (["", "c", "m"].flatMap fun mid =>
      ["js", "jsx", "ts", "tsx"].map fun ext =>
        "." ++ stem ++ "." ++ mid ++ ext))

/-- `isTestPath` of `applyStructureBoost` (the argument is already
lowercased by the caller). -/
def isTestPath (pathStr : String) : Bool :=
  (pathSegments pathStr).any segmentIsTest ||
    testFileSuffixes.any fun suf => strEndsWith pathStr suf

/-- The docs/data predicate of `applyStructureBoost`: suffix in
`.md .mdx .txt .json .lock` or the path contains `/docs/`. -/
def isDocPath (pathStr : String) : Bool :=
  strEndsWith pathStr ".md" || strEndsWith pathStr ".mdx" ||
    strEndsWith pathStr ".txt" || strEndsWith pathStr ".json" ||
    strEndsWith pathStr ".lock" || strContainsSub pathStr "/docs/"

/-- `Searcher.applyStructureBoost`: anchor penalty or code boost, then the
test and doc multipliers, each read from the environment with the
`parseFloat(...) || dflt` guard. -/
def applyStructureBoost (env : Env) (record : VectorRecord) (score : ℚ) : ℚ :=
  let adjusted :=
    if record.is_anchor then
      score * multKnob env.anchorPenalty (99/100)
    else
      if boostedTypes.contains record.chunk_type then
        score * multKnob env.codeBoost (105/100)
      else
        score
  let pathStr := toLowerStr record.path
  let adjusted :=
    if isTestPath pathStr then adjusted * multKnob env.testPenalty (9/10)
    else adjusted
  if isDocPath pathStr then adjusted * multKnob env.docPenalty (85/100)
  else adjusted

/-!
## Reciprocal Rank Fusion
-/

/-- Candidate key: `doc.id || path:chunk_index` (an empty `id` is falsy
in JavaScript, so it also falls back to `path:chunk_index`). -/
def rrfKey (doc : VectorRecord) : String :=
  if doc.id = "" then doc.path ++ ":" ++ toString doc.chunk_index else doc.id

/-- `RRF_K = 60`. -/
def RRF_K : ℕ := 60

/-- `candidateScores.set(key, (candidateScores.get(key) || 0) + score)`:
JavaScript `Map.set` updates an existing key in place (keeping its
insertion position) and appends a fresh key. -/
def bumpScore : List (String × ℚ) → String → ℚ → List (String × ℚ)
  | [], k, v => [(k, v)]
  | (k', v') :: rest, k, v =>
      if k' = k then (k', v' + v) :: rest else (k', v') :: bumpScore rest k v

/-- One `forEach((doc, rank) => ...)` pass of the RRF accumulation:
score `1 / (RRF_K + rank + 1)` for each document of the list. -/
def rrfAdd (cs : List (String × ℚ)) (docs : List VectorRecord) : List (String × ℚ) :=
  docs.enum.foldl
    (fun m p => bumpScore m (rrfKey p.2) (1 / ((RRF_K : ℚ) + p.1 + 1))) cs

/-- `candidateScores` after both passes (dense first, then FTS). -/
def rrfScoreMap (vectorResults ftsResults : List VectorRecord) : List (String × ℚ) :=
  rrfAdd (rrfAdd [] vectorResults) ftsResults

/-- `docMap.set(key, doc)` (dense pass: unconditional set). -/
def setDoc : List (String × VectorRecord) → String → VectorRecord → List (String × VectorRecord)
  | [], k, d => [(k, d)]
  | (k', d') :: rest, k, d =>
      if k' = k then (k', d) :: rest else (k', d') :: setDoc rest k d

/-- `if (!docMap.has(key)) docMap.set(key, doc)` (FTS pass). -/
def setDocIfAbsent (m : List (String × VectorRecord)) (k : String) (d : VectorRecord) :
    List (String × VectorRecord) :=
  if (m.lookup k).isSome then m else m ++ [(k, d)]

/-- `docMap` after both passes. -/
def buildDocMap (vectorResults ftsResults : List VectorRecord) :
    List (String × VectorRecord) :=
  let m := vectorResults.foldl (fun m doc => setDoc m (rrfKey doc) doc) []
  ftsResults.foldl (fun m doc => setDocIfAbsent m (rrfKey doc) doc) m

/-- The stable descending comparator `(a, b) => b[1] - a[1]` used on the
score-map entries.  JavaScript `Array.prototype.sort` is a stable sort,
and the output of a stable sort is uniquely determined by the comparator,
so any stable sort is a faithful embedding; we use the structurally
recursive `List.insertionSort`, which is stable. -/
def scoreLe (a b : String × ℚ) : Prop := b.2 ≤ a.2

instance : DecidableRel scoreLe := fun a b => inferInstanceAs (Decidable (b.2 ≤ a.2))

/-- `fused`: score-map entries sorted by score descending (stable — ties
keep insertion order, dense first), mapped back through `docMap`. -/
def fusedList (vectorResults ftsResults : List VectorRecord) : List VectorRecord :=
  ((rrfScoreMap vectorResults ftsResults).insertionSort scoreLe).filterMap
    (fun e => (buildDocMap vectorResults ftsResults).lookup e.1)

/-!
## Stage 1: pooled-cosine prefilter
-/

/-- The manual dot product of the prefilter:
`for i in 0..queryPooled.length: dot += queryPooled[i] * (docVec[i] || 0)`
(out-of-range document entries read as 0). -/
def dotJS (queryPooled docVec : List ℚ) : ℚ :=
  queryPooled.enum.foldl (fun dot p => dot + p.2 * (docVec.getD p.1 0)) 0

/-- Prefilter score of one candidate: `-1` when no pooled vector, else the
dot product with the pooled query vector. -/
def cosineScore (queryPooled : List ℚ) (doc : VectorRecord) : ℚ :=
  match doc.pooled_colbert_48d with
  | none => -1
  | some docVec => dotJS queryPooled docVec

/-- The stable descending comparator `(a, b) => b.score - a.score` on
scored records (again embedded as a stable sort). -/
def scoredLe (a b : VectorRecord × ℚ) : Prop := b.2 ≤ a.2

instance : DecidableRel scoredLe := fun a b => inferInstanceAs (Decidable (b.2 ≤ a.2))

/-- Stage-1 body: pair each candidate with its cosine score, sort by score
descending (stable), keep the top `STAGE2_K`, drop the scores. -/
def stage1Filter (queryPooled : List ℚ) (stage2K : ℕ)
    (topCandidates : List VectorRecord) : List VectorRecord :=
  (((topCandidates.map fun doc => (doc, cosineScore queryPooled doc)).insertionSort
      scoredLe).take stage2K).map Prod.fst

/-- `stage2Candidates`: the prefilter runs only when a pooled query vector
is present and `topCandidates.length > STAGE2_K`; otherwise the stage-1
list passes through unchanged. -/
def stage2Input (queryPooled : Option (List ℚ)) (stage2K : ℕ)
    (topCandidates : List VectorRecord) : List VectorRecord :=
  match queryPooled with
  | some qp =>
      if stage2K < topCandidates.length then stage1Filter qp stage2K topCandidates
      else topCandidates
  | none => topCandidates

/-!
## Rerank-disabled scores, blending, diversification
-/

/-- Scores when `rerank` is disabled:
`fusedScore || 1/(idx+1)` with `fusedScore = candidateScores.get(key) ?? 0`. -/
def disabledScores (candidateScores : List (String × ℚ))
    (rerankCandidates : List VectorRecord) : List ℚ :=
  rerankCandidates.enum.map fun p =>
    let fusedScore := (candidateScores.lookup (rrfKey p.2)).getD 0
    if fusedScore = 0 then 1 / ((p.1 : ℚ) + 1) else fusedScore

/-- `scored`: blend `base + FUSED_WEIGHT * fusedScore` then apply the
structure boost (`scores?.[idx] ?? 0` reads 0 past the end). -/
def blendAndBoost (env : Env) (fusedWeight : ℚ)
    (candidateScores : List (String × ℚ)) (scores : List ℚ)
    (rerankCandidates : List VectorRecord) : List (VectorRecord × ℚ) :=
  rerankCandidates.enum.map fun p =>
    let base := scores.getD p.1 0
    let fusedScore := (candidateScores.lookup (rrfKey p.2)).getD 0
    let blended := base + fusedWeight * fusedScore
    (p.2, applyStructureBoost env p.2 blended)

/-- The diversification loop: admit an item when its path has contributed
fewer than `maxPerFile` records; after each iteration stop as soon as
`finalLimit` records are collected (the length check runs after the
admission, exactly as in the source). -/
def diversifyGo (maxPerFile finalLimit : ℕ) (seenFiles : String → ℕ)
    (collected : ℕ) : List (VectorRecord × ℚ) → List (VectorRecord × ℚ)
  | [] => []
  | item :: rest =>
      let path := item.1.path
      let count := seenFiles path
      if count < maxPerFile then
        if finalLimit ≤ collected + 1 then [item]
        else
          item :: diversifyGo maxPerFile finalLimit
            (Function.update seenFiles path (count + 1)) (collected + 1) rest
      else
        if finalLimit ≤ collected then []
        else diversifyGo maxPerFile finalLimit seenFiles collected rest

/-- `diversified`: the loop started with an empty `seenFiles` map. -/
def diversify (maxPerFile finalLimit : ℕ) (scored : List (VectorRecord × ℚ)) :
    List (VectorRecord × ℚ) :=
  diversifyGo maxPerFile finalLimit (fun _ => 0) 0 scored

/-!
## `Searcher.search`

The searcher's external collaborators are passed in as arguments:

* `ensureTable : Except Unit Unit` — outcome of `this.db.ensureTable()`;
* `vectorResults : List VectorRecord` — rows returned by the dense
  `vectorSearch(...).toArray()` (not guarded by a `try` in the source);
* `ftsOutcome : Except Unit (List VectorRecord)` — outcome of the FTS
  `table.search(query).toArray()`, whose failure is caught;
* `rerankOracle` — the worker-pool `rerank` call.  The pool lives outside
  this repository; per the spec it answers every request with a score
  list, so it is modelled as a total function.
-/

/-- Body of `Searcher.search` after the `ensureTable` try/catch and the
FTS try/catch have produced the two result lists. -/
def searchBody (env : Env) (doRerank : Bool) (finalLimit : ℕ)
    (queryPooled : Option (List ℚ))
    (vectorResults ftsResults : List VectorRecord)
    (rerankOracle : List VectorRecord → List ℚ) : SearchResponse :=
  let candidateScores := rrfScoreMap vectorResults ftsResults
  let fused := fusedList vectorResults ftsResults
  let STAGE1_K := intKnob env.stage1K 200
  let topCandidates := fused.take STAGE1_K
  let STAGE2_K := intKnob env.stage2K 40
  let RERANK_TOP := intKnob env.rerankTop 20
  let FUSED_WEIGHT := blendKnob env.rerankBlend
  let stage2Candidates := stage2Input queryPooled STAGE2_K topCandidates
  if stage2Candidates.isEmpty then { data := [] }
  else
    let rerankCandidates := stage2Candidates.take RERANK_TOP
    let scores :=
      if doRerank then rerankOracle rerankCandidates
      else disabledScores candidateScores rerankCandidates
    let scored := blendAndBoost env FUSED_WEIGHT candidateScores scores rerankCandidates
    let sorted := scored.insertionSort scoredLe
    let MAX_PER_FILE := intKnob env.maxPerFile 3
    let diversified := diversify MAX_PER_FILE finalLimit sorted
    { data := diversified.map fun item => mapRecordToChunk item.1 item.2 }

/-- `Searcher.search` from the `ensureTable` call onwards (query encoding
has already produced `queryPooled`; `doRerank = _search_options?.rerank ?? true`,
`finalLimit = top_k ?? 10`): a failed `ensureTable` is caught and yields
`{data: []}`; a failed FTS search is caught and contributes an empty
list. -/
def search (env : Env) (doRerank : Bool) (finalLimit : ℕ)
    (queryPooled : Option (List ℚ)) (ensureTable : Except Unit Unit)
    (vectorResults : List VectorRecord)
    (ftsOutcome : Except Unit (List VectorRecord))
    (rerankOracle : List VectorRecord → List ℚ) : SearchResponse :=
  match ensureTable with
  | .error _ => { data := [] }
  | .ok _ =>
    let ftsResults := match ftsOutcome with
      | .ok rows => rows
      | .error _ => []
    searchBody env doRerank finalLimit queryPooled vectorResults ftsResults
      rerankOracle

/-!
## Claims about error handling and the environment knobs
-/

/-- C2: a search never throws for a missing table, a failing FTS search or
zero candidates: when `ensureTable` fails the result is `{data: []}`; when
the full-text search throws, the query proceeds exactly as if FTS had
returned zero candidates; and with no candidates at all the result is
`{data: []}`.  (The worker pool is modelled as a total oracle, per the
spec's contract that pool requests always answer.) -/
theorem C2_search_never_throws :
    ∀ (env : Env) (doRerank : Bool) (finalLimit : ℕ)
      (queryPooled : Option (List ℚ)) (dense ftsRows : List VectorRecord)
      (oracle : List VectorRecord → List ℚ),
      search env doRerank finalLimit queryPooled (.error ()) dense (.ok ftsRows) oracle
          = { data := [] } ∧
      search env doRerank finalLimit queryPooled (.ok ()) dense (.error ()) oracle
          = search env doRerank finalLimit queryPooled (.ok ()) dense (.ok []) oracle ∧
      search env doRerank finalLimit queryPooled (.ok ()) [] (.ok []) oracle
          = { data := [] } := by
  intro env doRerank finalLimit queryPooled dense ftsRows oracle
  refine ⟨rfl, rfl, ?_⟩
  cases queryPooled <;>
    simp [search, searchBody, rrfScoreMap, rrfAdd, fusedList, buildDocMap,
      stage2Input, List.enum]

/-- C9 (counterexample): `OSGREP_ANCHOR_PENALTY = -1` is a non-positive
value, yet the structure boost multiplies by `-1` instead of falling back
to the default `0.99`: the anchor's score `1` becomes `-1`, not `99/100`. -/
theorem C9_counterexample :
    applyStructureBoost
        { Env.default with anchorPenalty := some (-1) }
        { id := "a", path := "src/core.rs", chunk_index := 0, content := "c",
          display_text := "", context_prev := "", context_next := "",
          start_line := 1, end_line := 2, chunk_type := "block",
          is_anchor := true, hash := "h", pooled_colbert_48d := none }
        1 = -1 ∧
    applyStructureBoost Env.default
        { id := "a", path := "src/core.rs", chunk_index := 0, content := "c",
          display_text := "", context_prev := "", context_next := "",
          start_line := 1, end_line := 2, chunk_type := "block",
          is_anchor := true, hash := "h", pooled_colbert_48d := none }
        1 = 99/100 ∧
    (-1 : ℚ) ≤ 0 := by
  have h1 : isTestPath (toLowerStr "src/core.rs") = false := by decide
  have h2 : isDocPath (toLowerStr "src/core.rs") = false := by decide
  refine ⟨?_, ?_, by norm_num⟩ <;>
    simp [applyStructureBoost, h1, h2, multKnob, Env.default]

/-- C9 (amended): the five `parseInt` knobs (`OSGREP_PRE_K`,
`OSGREP_STAGE1_K`, `OSGREP_STAGE2_K`, `OSGREP_RERANK_TOP`,
`OSGREP_MAX_PER_FILE`) fall back to their defaults on an invalid or
non-positive value; `OSGREP_RERANK_BLEND` falls back on an invalid or
negative value but accepts `0`; the four multiplier knobs
(`OSGREP_ANCHOR_PENALTY`, `OSGREP_CODE_BOOST`, `OSGREP_TEST_PENALTY`,
`OSGREP_DOC_PENALTY`) fall back on an invalid or zero value but use any
other parsed value, negative values included. -/
theorem C9_amended :
    (∀ (d : ℕ), intKnob none d = d) ∧
    (∀ (z : ℤ) (d : ℕ), z ≤ 0 → intKnob (some z) d = d) ∧
    (∀ (env : Env) (finalLimit : ℕ), env.preK = none →
      preRerankK env finalLimit = max (finalLimit * 5) 500) ∧
    blendKnob none = 1/2 ∧
    (∀ (q : ℚ), q < 0 → blendKnob (some q) = 1/2) ∧
    blendKnob (some 0) = 0 ∧
    (∀ (d : ℚ), multKnob none d = d) ∧
    (∀ (d : ℚ), multKnob (some 0) d = d) ∧
    (∀ (q d : ℚ), q ≠ 0 → multKnob (some q) d = q) := by
  refine ⟨fun d => rfl, ?_, ?_, rfl, ?_, rfl, fun d => rfl, fun d => rfl, ?_⟩
  · intro z d hz
    simp [intKnob, not_lt.mpr hz]
  · intro env finalLimit hpre
    simp [preRerankK, hpre, intKnob]
  · intro q hq
    simp [blendKnob, not_le.mpr hq]
  · intro q d hq
    simp [multKnob, hq]

/-- C9 (witness for the amended theorem): concrete fallback evaluations. -/
theorem C9_amended_witness :
    intKnob (some (-7)) 200 = 200 ∧ blendKnob (some (-1)) = 1/2 ∧
    multKnob (some 0) (9/10) = 9/10 ∧ multKnob (some (-2)) (9/10) = -2 := by
  refine ⟨C9_amended.2.1 (-7) 200 (by norm_num), ?_, C9_amended.2.2.2.2.2.2.2.1 (9/10), ?_⟩
  · exact C9_amended.2.2.2.2.1 (-1) (by norm_num)
  · exact C9_amended.2.2.2.2.2.2.2.2 (-2) (9/10) (by norm_num)

end Osgrep

namespace Osgrep

instance : IsTotal (VectorRecord × ℚ) scoredLe := ⟨fun a b => le_total b.2 a.2⟩

instance : IsTrans (VectorRecord × ℚ) scoredLe :=
  ⟨fun _ _ _ h1 h2 => le_trans h2 h1⟩

instance : IsTotal (String × ℚ) scoreLe := ⟨fun a b => le_total b.2 a.2⟩

instance : IsTrans (String × ℚ) scoreLe :=
  ⟨fun _ _ _ h1 h2 => le_trans h2 h1⟩

/-- Sample record: a plain block chunk with a pooled vector. -/
def sampleA : VectorRecord :=
  { id := "a", path := "x.test.ts", chunk_index := 0, content := "ca",
    display_text := "", context_prev := "", context_next := "",
    start_line := 1, end_line := 3, chunk_type := "block", is_anchor := false,
    hash := "ha", pooled_colbert_48d := some [1, 0] }

/-- Sample record: a function chunk with a pooled vector. -/
def sampleB : VectorRecord :=
  { id := "b", path := "y.ts", chunk_index := 0, content := "cb",
    display_text := "", context_prev := "", context_next := "",
    start_line := 1, end_line := 2, chunk_type := "function", is_anchor := false,
    hash := "hb", pooled_colbert_48d := some [0, 1] }

/-- Sample record: a chunk with no pooled vector. -/
def sampleC : VectorRecord :=
  { id := "c", path := "z.ts", chunk_index := 2, content := "cc",
    display_text := "", context_prev := "", context_next := "",
    start_line := 5, end_line := 9, chunk_type := "other", is_anchor := false,
    hash := "hc", pooled_colbert_48d := none }

/-- C4: the pooled-cosine prefilter runs iff a pooled query vector is
present and the candidate count exceeds `STAGE2_K`; when it does not run
the stage-2 input is the stage-1 list unchanged; when it runs it keeps the
top `STAGE2_K` candidates of the list sorted by dot product with the query
pooled vector (descending, stable), a candidate without a pooled vector
scoring `-1`. -/
theorem C4_stage1_prefilter :
    (∀ (stage2K : ℕ) (cands : List VectorRecord),
      stage2Input none stage2K cands = cands) ∧
    (∀ (qp : List ℚ) (stage2K : ℕ) (cands : List VectorRecord),
      cands.length ≤ stage2K → stage2Input (some qp) stage2K cands = cands) ∧
    (∀ (qp : List ℚ) (doc : VectorRecord), doc.pooled_colbert_48d = none →
      cosineScore qp doc = -1) ∧
    (∀ (qp : List ℚ) (stage2K : ℕ) (cands : List VectorRecord),
      stage2K < cands.length →
      stage2Input (some qp) stage2K cands =
        ((((cands.map fun d => (d, cosineScore qp d)).insertionSort
            scoredLe).take stage2K).map Prod.fst) ∧
      ((((cands.map fun d => (d, cosineScore qp d)).insertionSort
          scoredLe)).map Prod.fst).Perm cands ∧
      (((cands.map fun d => (d, cosineScore qp d)).insertionSort
          scoredLe)).Pairwise scoredLe ∧
      (stage2Input (some qp) stage2K cands).length = stage2K) := by
  refine ⟨fun _ _ => rfl, ?_, ?_, ?_⟩
  · intro qp stage2K cands h
    simp [stage2Input, not_lt.mpr h]
  · intro qp doc h
    simp [cosineScore, h]
  · intro qp stage2K cands h
    have hrun : stage2Input (some qp) stage2K cands =
        stage1Filter qp stage2K cands := by
      simp [stage2Input, h]
    refine ⟨by rw [hrun]; rfl, ?_, ?_, ?_⟩
    · have hperm :=
        (List.perm_insertionSort scoredLe (cands.map fun d => (d, cosineScore qp d))).map
          Prod.fst
      simpa [Function.comp_def] using hperm
    · exact List.sorted_insertionSort scoredLe _
    · rw [hrun]
      unfold stage1Filter
      rw [List.length_map, List.length_take,
        (List.perm_insertionSort scoredLe _).length_eq, List.length_map]
      omega

/-- C4 (witness): concrete instantiations of every hypothesis of
`C4_stage1_prefilter`. -/
theorem C4_stage1_prefilter_witness :
    ([sampleA].length ≤ 1 ∧ stage2Input (some [1, 0]) 1 [sampleA] = [sampleA]) ∧
    (sampleC.pooled_colbert_48d = none ∧ cosineScore [1, 0] sampleC = -1) ∧
    (1 < [sampleA, sampleC].length ∧
      (stage2Input (some [1, 0]) 1 [sampleA, sampleC]).length = 1) :=
  ⟨⟨by decide, C4_stage1_prefilter.2.1 [1, 0] 1 [sampleA] (by decide)⟩,
   ⟨by decide, C4_stage1_prefilter.2.2.1 [1, 0] sampleC (by decide)⟩,
   ⟨by decide,
    (C4_stage1_prefilter.2.2.2 [1, 0] 1 [sampleA, sampleC] (by decide)).2.2.2⟩⟩

end Osgrep

namespace Osgrep

/-- Value stored under key `k` in the score map (`.get(key) ?? 0`). -/
def rrfValue (cs : List (String × ℚ)) (k : String) : ℚ := (cs.lookup k).getD 0

/-- The RRF contribution of key `k` in a ranked key list whose first
element has rank `n`: `1/(RRF_K + rank + 1)` at the first occurrence. -/
def rankContrib (n : ℕ) : List String → String → ℚ
  | [], _ => 0
  | key :: rest, k =>
      if k = key then 1 / ((RRF_K : ℚ) + n + 1) else rankContrib (n + 1) rest k

/-- Zero-based rank of the first occurrence of `k`. -/
def rankOf : List String → String → Option ℕ
  | [], _ => none
  | key :: rest, k => if k = key then some 0 else (rankOf rest k).map (· + 1)

lemma rrfValue_bumpScore (m : List (String × ℚ)) (k : String) (v : ℚ) (k' : String) :
    rrfValue (bumpScore m k v) k' = rrfValue m k' + (if k' = k then v else 0) := by
  induction m with
  | nil =>
      by_cases h : k' = k
      · have hb : (k' == k) = true := beq_iff_eq.mpr h
        simp [bumpScore, rrfValue, List.lookup, hb, h]
      · have hb : (k' == k) = false := beq_eq_false_iff_ne.mpr h
        simp [bumpScore, rrfValue, List.lookup, hb, h]
  | cons hd tl ih =>
      obtain ⟨k₀, v₀⟩ := hd
      by_cases h0 : k₀ = k
      · subst h0
        by_cases h' : k' = k₀
        · have hb : (k' == k₀) = true := beq_iff_eq.mpr h'
          simp [bumpScore, rrfValue, List.lookup, hb, h']
        · have hb : (k' == k₀) = false := beq_eq_false_iff_ne.mpr h'
          simp [bumpScore, rrfValue, List.lookup, hb, h']
      · by_cases h' : k' = k₀
        · subst h'
          have hne : ¬(k' = k) := fun h => h0 (h ▸ rfl)
          have hb : (k' == k') = true := beq_iff_eq.mpr rfl
          simp [bumpScore, rrfValue, List.lookup, h0, hb, hne]
        · have hb : (k' == k₀) = false := beq_eq_false_iff_ne.mpr h'
          simpa [bumpScore, rrfValue, List.lookup, h0, hb] using ih

/-- Recursion-friendly version of one RRF `forEach` pass starting at
rank `n`. -/
def rrfAddGo (n : ℕ) (cs : List (String × ℚ)) : List VectorRecord → List (String × ℚ)
  | [] => cs
  | d :: ds =>
      rrfAddGo (n + 1) (bumpScore cs (rrfKey d) (1 / ((RRF_K : ℚ) + n + 1))) ds

lemma rrfAdd_eq_go (cs : List (String × ℚ)) (docs : List VectorRecord) :
    rrfAdd cs docs = rrfAddGo 0 cs docs := by
  suffices h : ∀ (n : ℕ) (cs : List (String × ℚ)),
      (docs.enumFrom n).foldl
        (fun m p => bumpScore m (rrfKey p.2) (1 / ((RRF_K : ℚ) + p.1 + 1))) cs =
        rrfAddGo n cs docs by
    simpa [rrfAdd, List.enum] using h 0 cs
  induction docs with
  | nil => intro n cs; simp [rrfAddGo]
  | cons d ds ih =>
      intro n cs
      rw [show List.enumFrom n (d :: ds) = (n, d) :: List.enumFrom (n + 1) ds from rfl,
        List.foldl_cons, rrfAddGo]
      exact ih (n + 1) _

lemma rankContrib_eq_zero_of_not_mem {keys : List String} {k : String}
    (h : k ∉ keys) : ∀ n, rankContrib n keys k = 0 := by
  induction keys with
  | nil => intro n; simp [rankContrib]
  | cons key rest ih =>
      intro n
      have hk : k ≠ key := fun hk => h (hk ▸ List.mem_cons_self _ _)
      have hr : k ∉ rest := fun hr => h (List.mem_cons_of_mem _ hr)
      simp [rankContrib, hk, ih hr]

lemma rrfValue_rrfAddGo {docs : List VectorRecord}
    (hndup : (docs.map rrfKey).Nodup) (k : String) :
    ∀ (n : ℕ) (cs : List (String × ℚ)),
      rrfValue (rrfAddGo n cs docs) k =
        rrfValue cs k + rankContrib n (docs.map rrfKey) k := by
  induction docs with
  | nil => intro n cs; simp [rrfAddGo, rankContrib]
  | cons d ds ih =>
      intro n cs
      have hnd : (ds.map rrfKey).Nodup := (List.nodup_cons.mp (by simpa using hndup)).2
      have hnotmem : rrfKey d ∉ ds.map rrfKey :=
        (List.nodup_cons.mp (by simpa using hndup)).1
      rw [rrfAddGo, ih hnd, rrfValue_bumpScore]
      by_cases hk : k = rrfKey d
      · subst hk
        rw [rankContrib_eq_zero_of_not_mem hnotmem]
        simp [rankContrib]
      · simp [rankContrib, hk]

lemma rankContrib_of_rankOf {keys : List String} {k : String} {i : ℕ}
    (h : rankOf keys k = some i) :
    ∀ n, rankContrib n keys k = 1 / ((RRF_K : ℚ) + n + i + 1) := by
  induction keys generalizing i with
  | nil => simp [rankOf] at h
  | cons key rest ih =>
      intro n
      by_cases hk : k = key
      · simp [rankOf, hk] at h
        subst h
        simp [rankContrib, hk]
      · simp [rankOf, hk] at h
        obtain ⟨i', hi', rfl⟩ := h
        rw [rankContrib, if_neg hk, ih hi' (n + 1)]
        push_cast
        ring

lemma one_div_rank_strict {x y : ℕ} (h : x < y) :
    1 / ((RRF_K : ℚ) + 0 + y + 1) < 1 / ((RRF_K : ℚ) + 0 + x + 1) := by
  apply one_div_lt_one_div_of_lt
  · positivity
  · simp [RRF_K]
    omega

/-- C3: with distinct keys inside each list, the fused score of every
candidate key is exactly the sum of `1/(RRF_K + rank + 1)` over the (at
most two) lists in which it occurs, with `RRF_K = 60` and the key given by
`rrfKey` (`id`, or `path:chunk_index` when the id is absent); and the
fusion is rank-monotone: a candidate strictly above another in both the
dense and the FTS ranking gets a strictly larger fused score. -/
theorem C3_rrf_accumulation_monotone :
    ∀ (dense fts : List VectorRecord),
      (dense.map rrfKey).Nodup → (fts.map rrfKey).Nodup →
      (∀ k, rrfValue (rrfScoreMap dense fts) k =
          rankContrib 0 (dense.map rrfKey) k + rankContrib 0 (fts.map rrfKey) k) ∧
      (∀ (a b : String) (ia ib ja jb : ℕ),
        rankOf (dense.map rrfKey) a = some ia →
        rankOf (dense.map rrfKey) b = some ib → ia < ib →
        rankOf (fts.map rrfKey) a = some ja →
        rankOf (fts.map rrfKey) b = some jb → ja < jb →
        rrfValue (rrfScoreMap dense fts) b < rrfValue (rrfScoreMap dense fts) a) := by
  intro dense fts hd hf
  have hval : ∀ k, rrfValue (rrfScoreMap dense fts) k =
      rankContrib 0 (dense.map rrfKey) k + rankContrib 0 (fts.map rrfKey) k := by
    intro k
    rw [rrfScoreMap, rrfAdd_eq_go, rrfAdd_eq_go, rrfValue_rrfAddGo hf k,
      rrfValue_rrfAddGo hd k]
    simp [rrfValue]
  refine ⟨hval, ?_⟩
  intro a b ia ib ja jb hia hib hiab hja hjb hjab
  rw [hval a, hval b,
    rankContrib_of_rankOf hia 0, rankContrib_of_rankOf hib 0,
    rankContrib_of_rankOf hja 0, rankContrib_of_rankOf hjb 0]
  exact add_lt_add (one_div_rank_strict hiab) (one_div_rank_strict hjab)

/-- C3 (witness): a three-document example where `a` outranks `b` in both
lists, instantiating every hypothesis of `C3_rrf_accumulation_monotone`. -/
theorem C3_rrf_witness :
    ([sampleA, sampleB].map rrfKey).Nodup ∧
    ([sampleA, sampleC, sampleB].map rrfKey).Nodup ∧
    rankOf ([sampleA, sampleB].map rrfKey) "a" = some 0 ∧
    rankOf ([sampleA, sampleB].map rrfKey) "b" = some 1 ∧
    rankOf ([sampleA, sampleC, sampleB].map rrfKey) "a" = some 0 ∧
    rankOf ([sampleA, sampleC, sampleB].map rrfKey) "b" = some 2 ∧
    rrfValue (rrfScoreMap [sampleA, sampleB] [sampleA, sampleC, sampleB]) "b" <
      rrfValue (rrfScoreMap [sampleA, sampleB] [sampleA, sampleC, sampleB]) "a" :=
  ⟨by decide, by decide, by decide, by decide, by decide, by decide,
   (C3_rrf_accumulation_monotone [sampleA, sampleB] [sampleA, sampleC, sampleB]
      (by decide) (by decide)).2 "a" "b" 0 1 0 2
      (by decide) (by decide) (by decide) (by decide) (by decide) (by decide)⟩

end Osgrep

namespace Osgrep

lemma diversifyGo_countP (maxPerFile finalLimit : ℕ) (p : String) :
    ∀ (l : List (VectorRecord × ℚ)) (seen : String → ℕ) (collected : ℕ),
      (diversifyGo maxPerFile finalLimit seen collected l).countP
          (fun item => item.1.path == p) ≤ maxPerFile - seen p := by
  intro l
  induction l with
  | nil => intro seen collected; simp [diversifyGo]
  | cons item rest ih =>
      intro seen collected
      by_cases hadm : seen item.1.path < maxPerFile
      · by_cases hstop : finalLimit ≤ collected + 1
        · rw [diversifyGo, if_pos hadm, if_pos hstop]
          by_cases hp : item.1.path = p
          · have : seen p < maxPerFile := hp ▸ hadm
            simp [List.countP_cons, hp]
            omega
          · simp [List.countP_cons, hp]
        · rw [diversifyGo, if_pos hadm, if_neg hstop]
          have := ih (Function.update seen item.1.path (seen item.1.path + 1))
            (collected + 1)
          by_cases hp : item.1.path = p
          · subst hp
            rw [Function.update_same] at this
            simp only [List.countP_cons, beq_self_eq_true, if_pos]
            omega
          · rw [Function.update_noteq (fun h => hp h.symm)] at this
            have hbp : (item.1.path == p) = false := beq_eq_false_iff_ne.mpr hp
            simp only [List.countP_cons, hbp, if_neg Bool.false_ne_true]
            omega
      · by_cases hstop : finalLimit ≤ collected
        · rw [diversifyGo, if_neg hadm, if_pos hstop]
          simp
        · rw [diversifyGo, if_neg hadm, if_neg hstop]
          exact ih seen collected

lemma diversifyGo_length (maxPerFile finalLimit : ℕ) :
    ∀ (l : List (VectorRecord × ℚ)) (seen : String → ℕ) (collected : ℕ),
      collected < finalLimit →
      (diversifyGo maxPerFile finalLimit seen collected l).length ≤
        finalLimit - collected := by
  intro l
  induction l with
  | nil => intro seen collected h; simp [diversifyGo]
  | cons item rest ih =>
      intro seen collected h
      by_cases hadm : seen item.1.path < maxPerFile
      · by_cases hstop : finalLimit ≤ collected + 1
        · rw [diversifyGo, if_pos hadm, if_pos hstop]
          simp
          omega
        · rw [diversifyGo, if_pos hadm, if_neg hstop]
          have := ih (Function.update seen item.1.path (seen item.1.path + 1))
            (collected + 1) (by omega)
          simp only [List.length_cons]
          omega
      · by_cases hstop : finalLimit ≤ collected
        · omega
        · rw [diversifyGo, if_neg hadm, if_neg hstop]
          have := ih seen collected h
          omega

end Osgrep

namespace Osgrep

/-- C5 (amended): the diversification loop admits at most `MAX_PER_FILE`
records per path, and — provided `final_limit ≥ 1` — at most `final_limit`
records in total; the same two bounds hold for the data list returned by
`search`.  (For `final_limit = 0` the loop checks its stop condition only
after admitting an item, so one record can be returned; see the
counterexample.) -/
theorem C5_amended_diversification :
    (∀ (maxPerFile finalLimit : ℕ) (scored : List (VectorRecord × ℚ)) (p : String),
      (diversify maxPerFile finalLimit scored).countP
        (fun item => item.1.path == p) ≤ maxPerFile) ∧
    (∀ (maxPerFile finalLimit : ℕ) (scored : List (VectorRecord × ℚ)),
      1 ≤ finalLimit →
      (diversify maxPerFile finalLimit scored).length ≤ finalLimit) ∧
    (∀ (env : Env) (doRerank : Bool) (finalLimit : ℕ) (qp : Option (List ℚ))
      (ensure : Except Unit Unit) (dense : List VectorRecord)
      (fts : Except Unit (List VectorRecord))
      (oracle : List VectorRecord → List ℚ) (p : String),
      (search env doRerank finalLimit qp ensure dense fts oracle).data.countP
          (fun c => c.metadata.path == p) ≤ intKnob env.maxPerFile 3 ∧
      (1 ≤ finalLimit →
        (search env doRerank finalLimit qp ensure dense fts oracle).data.length ≤
          finalLimit)) := by
  have hcount : ∀ (maxPerFile finalLimit : ℕ) (scored : List (VectorRecord × ℚ))
      (p : String),
      (diversify maxPerFile finalLimit scored).countP
        (fun item => item.1.path == p) ≤ maxPerFile := by
    intro maxPerFile finalLimit scored p
    simpa using diversifyGo_countP maxPerFile finalLimit p scored (fun _ => 0) 0
  have hlen : ∀ (maxPerFile finalLimit : ℕ) (scored : List (VectorRecord × ℚ)),
      1 ≤ finalLimit →
      (diversify maxPerFile finalLimit scored).length ≤ finalLimit := by
    intro maxPerFile finalLimit scored h
    simpa using diversifyGo_length maxPerFile finalLimit scored (fun _ => 0) 0 h
  have hbody : ∀ (env : Env) (doRerank : Bool) (finalLimit : ℕ)
      (qp : Option (List ℚ)) (dense ftsRows : List VectorRecord)
      (oracle : List VectorRecord → List ℚ) (p : String),
      (searchBody env doRerank finalLimit qp dense ftsRows oracle).data.countP
          (fun c => c.metadata.path == p) ≤ intKnob env.maxPerFile 3 ∧
      (1 ≤ finalLimit →
        (searchBody env doRerank finalLimit qp dense ftsRows oracle).data.length ≤
          finalLimit) := by
    intro env doRerank finalLimit qp dense ftsRows oracle p
    rw [searchBody]
    by_cases hemp :
        (stage2Input qp (intKnob env.stage2K 40)
          ((fusedList dense ftsRows).take (intKnob env.stage1K 200))).isEmpty
    · simp only [hemp, if_true]
      simp
    · simp only [hemp, if_false, Bool.false_eq_true]
      constructor
      · rw [List.countP_map]
        have heq : ((fun c => c.metadata.path == p) ∘
            fun item : VectorRecord × ℚ => mapRecordToChunk item.1 item.2) =
            fun item : VectorRecord × ℚ => item.1.path == p := by
          funext item
          simp [mapRecordToChunk]
        rw [heq]
        exact hcount _ _ _ p
      · intro hfl
        rw [List.length_map]
        exact hlen _ _ _ hfl
  refine ⟨hcount, hlen, ?_⟩
  intro env doRerank finalLimit qp ensure dense fts oracle p
  cases ensure with
  | error e => simp [search]
  | ok _ =>
      cases fts with
      | error e => exact hbody env doRerank finalLimit qp dense [] oracle p
      | ok rows => exact hbody env doRerank finalLimit qp dense rows oracle p

/-- C5 (witness): bounds instantiated on a concrete search. -/
theorem C5_amended_witness :
    (1 ≤ 10 ∧
      (search Env.default true 10 none (.ok ()) [sampleA, sampleB] (.ok [])
          (fun l => l.map fun _ => 1)).data.length ≤ 10) ∧
    (search Env.default true 10 none (.ok ()) [sampleA, sampleB] (.ok [])
        (fun l => l.map fun _ => 1)).data.countP
      (fun c => c.metadata.path == "x.test.ts") ≤ intKnob Env.default.maxPerFile 3 :=
  ⟨⟨by decide,
    ((C5_amended_diversification.2.2 Env.default true 10 none (.ok ())
      [sampleA, sampleB] (.ok []) (fun l => l.map fun _ => 1) "x.test.ts").2
      (by decide))⟩,
   (C5_amended_diversification.2.2 Env.default true 10 none (.ok ())
      [sampleA, sampleB] (.ok []) (fun l => l.map fun _ => 1) "x.test.ts").1⟩

end Osgrep

namespace Osgrep

/-- C5 (counterexample): invoking `search` with `top_k = 0` (so
`final_limit = 0`) on one candidate returns one record, not zero: the loop
admits the item before checking `diversified.length >= finalLimit`.  This
falsifies "at most final_limit records in total" as stated for every
invocation. -/
theorem C5_counterexample :
    (search Env.default true 0 none (.ok ()) [sampleB] (.ok [])
        (fun l => l.map fun _ => 1)).data.length = 1 := by
  have h1 : isTestPath (toLowerStr "y.ts") = false := by decide
  have h2 : isDocPath (toLowerStr "y.ts") = false := by decide
  have hkey : (if ("b" : String) = "" then "y.ts" ++ ":" ++ toString 0 else "b") = "b" := by
    decide
  norm_num [search, searchBody, rrfScoreMap, rrfAdd, bumpScore, rrfKey,
    fusedList, buildDocMap, setDoc, setDocIfAbsent, intKnob, blendKnob,
    multKnob, stage2Input, stage1Filter, cosineScore, dotJS, disabledScores,
    blendAndBoost, applyStructureBoost, diversify, diversifyGo,
    mapRecordToChunk, scoreLe, scoredLe, List.insertionSort,
    List.orderedInsert, sampleB, Env.default, h1, h2, hkey,
    boostedTypes, List.lookup, List.enum, List.enumFrom, RRF_K,
    beq_self_eq_true, List.filterMap_cons, List.filterMap_nil,
    List.getElem?_cons_zero, Option.getD_some, List.isEmpty]

end Osgrep

namespace Osgrep

/-- Keys of a score map. -/
def keysOf (m : List (String × ℚ)) : List String := m.map Prod.fst

lemma keysOf_bumpScore (m : List (String × ℚ)) (k : String) (v : ℚ) :
    keysOf (bumpScore m k v) = keysOf m ∨
      (keysOf (bumpScore m k v) = keysOf m ++ [k] ∧ k ∉ keysOf m) := by
  induction m with
  | nil => right; simp [keysOf, bumpScore]
  | cons hd tl ih =>
      obtain ⟨k₀, v₀⟩ := hd
      by_cases h0 : k₀ = k
      · left; simp [keysOf, bumpScore, h0]
      · rcases ih with h | ⟨h, hmem⟩
        · left; simp [keysOf, bumpScore, h0] at h ⊢; exact h
        · right
          constructor
          · simp [keysOf, bumpScore, h0] at h ⊢
            exact h
          · simp [keysOf] at hmem ⊢
            exact ⟨fun hk => h0 hk.symm, hmem⟩

lemma keysOf_bumpScore_nodup {m : List (String × ℚ)} (h : (keysOf m).Nodup)
    (k : String) (v : ℚ) : (keysOf (bumpScore m k v)).Nodup := by
  rcases keysOf_bumpScore m k v with heq | ⟨heq, hmem⟩
  · rw [heq]; exact h
  · rw [heq]
    simpa using List.Nodup.append h (List.nodup_singleton k)
      (by simpa using hmem)

lemma keysOf_rrfAddGo_nodup {docs : List VectorRecord} :
    ∀ (n : ℕ) {cs : List (String × ℚ)}, (keysOf cs).Nodup →
      (keysOf (rrfAddGo n cs docs)).Nodup := by
  induction docs with
  | nil => intro n cs h; exact h
  | cons d ds ih =>
      intro n cs h
      exact ih (n + 1) (keysOf_bumpScore_nodup h _ _)

lemma rrfScoreMap_keys_nodup (dense fts : List VectorRecord) :
    (keysOf (rrfScoreMap dense fts)).Nodup := by
  rw [rrfScoreMap, rrfAdd_eq_go, rrfAdd_eq_go]
  exact keysOf_rrfAddGo_nodup 0 (keysOf_rrfAddGo_nodup 0 (by simp [keysOf]))

lemma lookup_eq_some_of_mem_nodup {m : List (String × ℚ)} {k : String} {v : ℚ}
    (hnd : (keysOf m).Nodup) (hmem : (k, v) ∈ m) : m.lookup k = some v := by
  induction m with
  | nil => simp at hmem
  | cons hd tl ih =>
      obtain ⟨k₀, v₀⟩ := hd
      rcases List.mem_cons.mp hmem with heq | htl
      · obtain ⟨rfl, rfl⟩ := Prod.mk.injEq .. ▸ heq
        simp [List.lookup]
      · have hk : k ≠ k₀ := by
          intro hk
          subst hk
          have : k ∈ keysOf tl := by
            simpa [keysOf] using List.mem_map_of_mem Prod.fst htl
          exact (List.nodup_cons.mp (by simpa [keysOf] using hnd)).1 this
        have hb : (k == k₀) = false := beq_eq_false_iff_ne.mpr hk
        simp [List.lookup, hb]
        exact ih (List.nodup_cons.mp (by simpa [keysOf] using hnd)).2 htl

lemma mem_of_lookup_eq_some {β : Type} {m : List (String × β)} {k : String}
    {v : β} (h : m.lookup k = some v) : (k, v) ∈ m := by
  induction m with
  | nil => simp [List.lookup] at h
  | cons hd tl ih =>
      obtain ⟨k₀, v₀⟩ := hd
      by_cases hk : k = k₀
      · subst hk
        have hb : (k == k) = true := beq_self_eq_true k
        simp [List.lookup, hb] at h
        subst h
        exact List.mem_cons_self _ _
      · have hb : (k == k₀) = false := beq_eq_false_iff_ne.mpr hk
        simp [List.lookup, hb] at h
        exact List.mem_cons_of_mem _ (ih h)

lemma setDoc_faithful {m : List (String × VectorRecord)}
    (h : ∀ p ∈ m, rrfKey p.2 = p.1) (d : VectorRecord) :
    ∀ p ∈ setDoc m (rrfKey d) d, rrfKey p.2 = p.1 := by
  induction m with
  | nil =>
      intro p hp
      simp [setDoc] at hp
      subst hp
      rfl
  | cons hd tl ih =>
      intro p hp
      obtain ⟨k₀, d₀⟩ := hd
      rw [setDoc] at hp
      by_cases h0 : k₀ = rrfKey d
      · rw [if_pos h0] at hp
        rcases List.mem_cons.mp hp with heq | htl
        · subst heq; exact h0.symm
        · exact h _ (List.mem_cons_of_mem _ htl)
      · rw [if_neg h0] at hp
        rcases List.mem_cons.mp hp with heq | htl
        · subst heq; exact h _ (List.mem_cons_self _ _)
        · exact ih (fun q hq => h q (List.mem_cons_of_mem _ hq)) _ htl

lemma setDocIfAbsent_faithful {m : List (String × VectorRecord)}
    (h : ∀ p ∈ m, rrfKey p.2 = p.1) (d : VectorRecord) :
    ∀ p ∈ setDocIfAbsent m (rrfKey d) d, rrfKey p.2 = p.1 := by
  intro p hp
  rw [setDocIfAbsent] at hp
  by_cases hs : (m.lookup (rrfKey d)).isSome
  · rw [if_pos hs] at hp
    exact h p hp
  · rw [if_neg hs] at hp
    rcases List.mem_append.mp hp with hm | hone
    · exact h p hm
    · simp at hone
      subst hone
      rfl

lemma buildDocMap_faithful (dense fts : List VectorRecord) :
    ∀ p ∈ buildDocMap dense fts, rrfKey p.2 = p.1 := by
  rw [buildDocMap]
  have h1 : ∀ (l : List VectorRecord) (m : List (String × VectorRecord)),
      (∀ p ∈ m, rrfKey p.2 = p.1) →
      ∀ p ∈ l.foldl (fun m doc => setDoc m (rrfKey doc) doc) m,
        rrfKey p.2 = p.1 := by
    intro l
    induction l with
    | nil => intro m h p hp; exact h p hp
    | cons d ds ih =>
        intro m h p hp
        exact ih _ (setDoc_faithful h d) p hp
  have h2 : ∀ (l : List VectorRecord) (m : List (String × VectorRecord)),
      (∀ p ∈ m, rrfKey p.2 = p.1) →
      ∀ p ∈ l.foldl (fun m doc => setDocIfAbsent m (rrfKey doc) doc) m,
        rrfKey p.2 = p.1 := by
    intro l
    induction l with
    | nil => intro m h p hp; exact h p hp
    | cons d ds ih =>
        intro m h p hp
        exact ih _ (setDocIfAbsent_faithful h d) p hp
  exact h2 fts _ (h1 dense [] (by simp))

end Osgrep

namespace Osgrep

lemma bumpScore_pos {m : List (String × ℚ)} (h : ∀ e ∈ m, 0 < e.2)
    {k : String} {v : ℚ} (hv : 0 < v) : ∀ e ∈ bumpScore m k v, 0 < e.2 := by
  induction m with
  | nil =>
      intro e he
      simp [bumpScore] at he
      subst he
      exact hv
  | cons hd tl ih =>
      intro e he
      obtain ⟨k₀, v₀⟩ := hd
      rw [bumpScore] at he
      by_cases h0 : k₀ = k
      · rw [if_pos h0] at he
        rcases List.mem_cons.mp he with heq | htl
        · subst heq
          have := h (k₀, v₀) (List.mem_cons_self _ _)
          simpa using add_pos this hv
        · exact h _ (List.mem_cons_of_mem _ htl)
      · rw [if_neg h0] at he
        rcases List.mem_cons.mp he with heq | htl
        · subst heq; exact h _ (List.mem_cons_self _ _)
        · exact ih (fun q hq => h q (List.mem_cons_of_mem _ hq)) _ htl

lemma rrfAddGo_pos {docs : List VectorRecord} :
    ∀ (n : ℕ) {cs : List (String × ℚ)}, (∀ e ∈ cs, 0 < e.2) →
      ∀ e ∈ rrfAddGo n cs docs, 0 < e.2 := by
  induction docs with
  | nil => intro n cs h; exact h
  | cons d ds ih =>
      intro n cs h
      refine ih (n + 1) (bumpScore_pos h ?_)
      positivity

lemma rrfScoreMap_pos (dense fts : List VectorRecord) :
    ∀ e ∈ rrfScoreMap dense fts, 0 < e.2 := by
  rw [rrfScoreMap, rrfAdd_eq_go, rrfAdd_eq_go]
  exact rrfAddGo_pos 0 (rrfAddGo_pos 0 (by simp))

/-- Every record in the fused list carries a strictly positive fused
score under its own `rrfKey`. -/
lemma fused_value_pos (dense fts : List VectorRecord) :
    ∀ r ∈ fusedList dense fts,
      0 < rrfValue (rrfScoreMap dense fts) (rrfKey r) := by
  intro r hr
  rw [fusedList] at hr
  obtain ⟨e, he, hlook⟩ := List.mem_filterMap.mp hr
  have hkey : rrfKey r = e.1 := buildDocMap_faithful dense fts (e.1, r)
    (mem_of_lookup_eq_some hlook)
  have hecs : e ∈ rrfScoreMap dense fts :=
    (List.perm_insertionSort scoreLe _).mem_iff.mp he
  have hlookup : (rrfScoreMap dense fts).lookup e.1 = some e.2 :=
    lookup_eq_some_of_mem_nodup (rrfScoreMap_keys_nodup dense fts)
      (by exact hecs)
  rw [rrfValue, hkey, hlookup]
  simpa using rrfScoreMap_pos dense fts e hecs

/-- The fused list is ordered by non-increasing fused score. -/
lemma fused_sorted (dense fts : List VectorRecord) :
    (fusedList dense fts).Pairwise
      (fun r s => rrfValue (rrfScoreMap dense fts) (rrfKey s) ≤
        rrfValue (rrfScoreMap dense fts) (rrfKey r)) := by
  rw [fusedList]
  have hsorted : (List.insertionSort scoreLe (rrfScoreMap dense fts)).Pairwise
      (fun a b : String × ℚ =>
        rrfValue (rrfScoreMap dense fts) b.1 ≤ rrfValue (rrfScoreMap dense fts) a.1) := by
    refine List.Pairwise.imp_of_mem ?_
      (List.sorted_insertionSort scoreLe (rrfScoreMap dense fts))
    intro a b ha hb hab
    have hacs : a ∈ rrfScoreMap dense fts :=
      (List.perm_insertionSort scoreLe _).mem_iff.mp ha
    have hbcs : b ∈ rrfScoreMap dense fts :=
      (List.perm_insertionSort scoreLe _).mem_iff.mp hb
    have hva : rrfValue (rrfScoreMap dense fts) a.1 = a.2 := by
      rw [rrfValue, lookup_eq_some_of_mem_nodup (rrfScoreMap_keys_nodup dense fts) hacs]
      rfl
    have hvb : rrfValue (rrfScoreMap dense fts) b.1 = b.2 := by
      rw [rrfValue, lookup_eq_some_of_mem_nodup (rrfScoreMap_keys_nodup dense fts) hbcs]
      rfl
    rw [hva, hvb]
    exact hab
  refine List.Pairwise.filterMap _ ?_ hsorted
  intro a b hab r hr s hs
  have hka : rrfKey r = a.1 := buildDocMap_faithful dense fts (a.1, r)
    (mem_of_lookup_eq_some hr)
  have hkb : rrfKey s = b.1 := buildDocMap_faithful dense fts (b.1, s)
    (mem_of_lookup_eq_some hs)
  rw [hka, hkb]
  exact hab

end Osgrep

namespace Osgrep

/-- A record none of the structural modifiers applies to: not an anchor,
not a boosted chunk type, not on a test path, not on a docs/data path. -/
def structNeutral (r : VectorRecord) : Bool :=
  !r.is_anchor && !(boostedTypes.contains r.chunk_type) &&
    !(isTestPath (toLowerStr r.path)) && !(isDocPath (toLowerStr r.path))

lemma applyStructureBoost_neutral {r : VectorRecord}
    (h : structNeutral r = true) (env : Env) (s : ℚ) :
    applyStructureBoost env r s = s := by
  rw [structNeutral] at h
  simp only [Bool.and_eq_true, Bool.not_eq_true'] at h
  obtain ⟨⟨⟨ha, hb⟩, ht⟩, hd⟩ := h
  have hb' : r.chunk_type ∉ boostedTypes := by simpa using hb
  rw [applyStructureBoost]
  simp [ha, hb', ht, hd]

lemma disabledScores_getD {cs : List (String × ℚ)} {cands : List VectorRecord}
    {i : ℕ} (hi : i < cands.length)
    (hnz : rrfValue cs (rrfKey cands[i]) ≠ 0) :
    (disabledScores cs cands).getD i 0 = rrfValue cs (rrfKey cands[i]) := by
  have hlen : (disabledScores cs cands).length = cands.length := by
    simp [disabledScores]
  have hilt : i < (disabledScores cs cands).length := by omega
  have hget : (disabledScores cs cands)[i] =
      rrfValue cs (rrfKey cands[i]) := by
    simp only [disabledScores, List.getElem_map, List.getElem_enum]
    simp only [rrfValue] at hnz ⊢
    rw [if_neg hnz]
  rw [List.getD_eq_getElem?_getD, List.getElem?_eq_getElem (by omega), hget]
  rfl

/-- With rerank disabled, every candidate's base score is its fused RRF
score, so the blended-and-boosted pair list is the candidate list scored
by `applyStructureBoost r ((1 + FUSED_WEIGHT) * fused r)`. -/
lemma blendAndBoost_disabled (env : Env) (w : ℚ) (cs : List (String × ℚ))
    (cands : List VectorRecord)
    (h : ∀ r ∈ cands, rrfValue cs (rrfKey r) ≠ 0) :
    blendAndBoost env w cs (disabledScores cs cands) cands =
      cands.map fun r =>
        (r, applyStructureBoost env r ((1 + w) * rrfValue cs (rrfKey r))) := by
  apply List.ext_getElem
  · simp [blendAndBoost]
  · intro i h1 h2
    have hi : i < cands.length := by simpa [blendAndBoost] using h1
    have hnz : rrfValue cs (rrfKey cands[i]) ≠ 0 :=
      h cands[i] (List.getElem_mem hi)
    simp only [blendAndBoost, List.getElem_map, List.getElem_enum]
    rw [disabledScores_getD hi hnz]
    simp only [rrfValue]
    congr 1
    ring_nf

lemma diversifyGo_sublist (maxPerFile finalLimit : ℕ) :
    ∀ (l : List (VectorRecord × ℚ)) (seen : String → ℕ) (collected : ℕ),
      (diversifyGo maxPerFile finalLimit seen collected l).Sublist l := by
  intro l
  induction l with
  | nil => intro seen collected; simp [diversifyGo]
  | cons item rest ih =>
      intro seen collected
      rw [diversifyGo]
      by_cases hadm : seen item.1.path < maxPerFile
      · rw [if_pos hadm]
        by_cases hstop : finalLimit ≤ collected + 1
        · rw [if_pos hstop]
          exact (List.nil_sublist rest).cons₂ item
        · rw [if_neg hstop]
          exact (ih _ _).cons₂ item
      · rw [if_neg hadm]
        by_cases hstop : finalLimit ≤ collected
        · rw [if_pos hstop]
          exact List.nil_sublist _
        · rw [if_neg hstop]
          exact (ih seen collected).cons item

end Osgrep

namespace Osgrep

/-- C1 (amended): with `rerank = false`, each candidate's base score is its
fused RRF score (`fusedScore || 1/(idx+1)`, the tie-breaker firing only
when the fused score is 0, which cannot happen for fused candidates), the
blend then multiplies it by `1 + FUSED_WEIGHT = 3/2`, and the final order
sorts by the structure-boosted blend.  Consequently, when no structural
modifier distinguishes the candidates (no anchors, no boosted chunk types,
no test or docs paths), the returned list is exactly a diversification
sublist of the RRF fused order, each record scored `3/2` times its fused
RRF score — but structural boosts can reorder away from RRF order (see the
counterexample). -/
theorem C1_amended_rerank_disabled :
    ∀ (finalLimit : ℕ) (dense ftsRows : List VectorRecord)
      (oracle : List VectorRecord → List ℚ),
      (∀ r ∈ fusedList dense ftsRows, structNeutral r = true) →
      ∃ recs : List VectorRecord,
        recs.Sublist (fusedList dense ftsRows) ∧
        (search Env.default false finalLimit none (.ok ()) dense (.ok ftsRows)
            oracle).data =
          recs.map fun r =>
            mapRecordToChunk r
              ((3/2) * rrfValue (rrfScoreMap dense ftsRows) (rrfKey r)) := by
  intro finalLimit dense ftsRows oracle hneutral
  have hbody : search Env.default false finalLimit none (.ok ()) dense
      (.ok ftsRows) oracle =
      (if ((fusedList dense ftsRows).take 200).isEmpty then
        ({ data := [] } : SearchResponse)
      else
        { data := (diversify 3 finalLimit
            ((blendAndBoost Env.default (1/2) (rrfScoreMap dense ftsRows)
              (disabledScores (rrfScoreMap dense ftsRows)
                (((fusedList dense ftsRows).take 200).take 20))
              (((fusedList dense ftsRows).take 200).take 20)).insertionSort
                scoredLe)).map fun item => mapRecordToChunk item.1 item.2 }) := rfl
  rw [hbody]
  by_cases hemp : ((fusedList dense ftsRows).take 200).isEmpty
  · rw [if_pos hemp]
    exact ⟨[], List.nil_sublist _, by simp⟩
  · rw [if_neg hemp]
    have hsubl0 : (((fusedList dense ftsRows).take 200).take 20).Sublist
        (fusedList dense ftsRows) :=
      (List.take_sublist _ _).trans (List.take_sublist _ _)
    have hmem0 : ∀ r ∈ ((fusedList dense ftsRows).take 200).take 20,
        r ∈ fusedList dense ftsRows := fun r hr => hsubl0.mem hr
    have hnz : ∀ r ∈ ((fusedList dense ftsRows).take 200).take 20,
        rrfValue (rrfScoreMap dense ftsRows) (rrfKey r) ≠ 0 := fun r hr =>
      ne_of_gt (fused_value_pos dense ftsRows r (hmem0 r hr))
    have hblend := blendAndBoost_disabled Env.default (1/2)
      (rrfScoreMap dense ftsRows) (((fusedList dense ftsRows).take 200).take 20)
      hnz
    have hmapcongr : (((fusedList dense ftsRows).take 200).take 20).map
        (fun r => (r, applyStructureBoost Env.default r
          ((1 + 1/2) * rrfValue (rrfScoreMap dense ftsRows) (rrfKey r)))) =
        (((fusedList dense ftsRows).take 200).take 20).map
          (fun r => (r, (3/2) * rrfValue (rrfScoreMap dense ftsRows) (rrfKey r))) := by
      apply List.map_congr_left
      intro r hr
      rw [applyStructureBoost_neutral (hneutral r (hmem0 r hr))]
      norm_num
    rw [hblend, hmapcongr]
    have hpair : (((fusedList dense ftsRows).take 200).take 20).Pairwise
        (fun r s => rrfValue (rrfScoreMap dense ftsRows) (rrfKey s) ≤
          rrfValue (rrfScoreMap dense ftsRows) (rrfKey r)) :=
      (fused_sorted dense ftsRows).sublist hsubl0
    have hsorted : ((((fusedList dense ftsRows).take 200).take 20).map
        (fun r => (r, (3/2) * rrfValue (rrfScoreMap dense ftsRows) (rrfKey r)))).Pairwise
          scoredLe := by
      rw [List.pairwise_map]
      refine hpair.imp ?_
      intro a b hab
      show (3/2) * rrfValue (rrfScoreMap dense ftsRows) (rrfKey b) ≤
        (3/2) * rrfValue (rrfScoreMap dense ftsRows) (rrfKey a)
      linarith
    rw [List.Sorted.insertionSort_eq hsorted]
    have hdiv := diversifyGo_sublist 3 finalLimit
      ((((fusedList dense ftsRows).take 200).take 20).map
        (fun r => (r, (3/2) * rrfValue (rrfScoreMap dense ftsRows) (rrfKey r))))
      (fun _ => 0) 0
    rw [diversify]
    obtain ⟨recs, hrecs, heq⟩ := List.sublist_map_iff.mp hdiv
    refine ⟨recs, hrecs.trans hsubl0, ?_⟩
    rw [heq, List.map_map]
    rfl

end Osgrep

namespace Osgrep

/-- Sample record: a second structurally neutral chunk. -/
def sampleD : VectorRecord :=
  { id := "d", path := "w.ts", chunk_index := 0, content := "cd",
    display_text := "", context_prev := "", context_next := "",
    start_line := 1, end_line := 1, chunk_type := "other", is_anchor := false,
    hash := "hd", pooled_colbert_48d := none }

/-- C1 (counterexample): with `rerank = false` the returned order does not
match the RRF fused order: the RRF order puts the test-path chunk
`x.test.ts` (dense rank 0) above the function chunk `y.ts` (dense rank 1),
but the structure boost (×0.9 test penalty versus ×1.05 code boost) flips
them in the final list, and the reported scores are the boosted blends,
not the RRF fused scores. -/
theorem C1_counterexample :
    (search Env.default false 10 none (.ok ()) [sampleA, sampleB] (.ok [])
        (fun _ => [])).data.map (fun c => c.metadata.path) = ["y.ts", "x.test.ts"] ∧
    (fusedList [sampleA, sampleB] []).map (fun r => r.path) = ["x.test.ts", "y.ts"] := by
  have h1 : isTestPath (toLowerStr "x.test.ts") = true := by decide
  have h2 : isDocPath (toLowerStr "x.test.ts") = false := by decide
  have h3 : isTestPath (toLowerStr "y.ts") = false := by decide
  have h4 : isDocPath (toLowerStr "y.ts") = false := by decide
  have hka : (if ("a" : String) = "" then "x.test.ts" ++ ":" ++ toString 0 else "a") = "a" := by
    decide
  have hkb : (if ("b" : String) = "" then "y.ts" ++ ":" ++ toString 0 else "b") = "b" := by
    decide
  have hba : (("b" : String) == "a") = false := by decide
  have hab : (("a" : String) == "b") = false := by decide
  constructor <;>
  norm_num +decide [search, searchBody, rrfScoreMap, rrfAdd, bumpScore, rrfKey,
    fusedList, buildDocMap, setDoc, setDocIfAbsent, intKnob, blendKnob,
    multKnob, stage2Input, stage1Filter, cosineScore, dotJS, disabledScores,
    blendAndBoost, applyStructureBoost, diversify, diversifyGo,
    mapRecordToChunk, scoreLe, scoredLe, List.insertionSort,
    List.orderedInsert, sampleA, sampleB, Env.default, h1, h2, h3, h4, hka, hkb,
    boostedTypes, List.lookup, List.enum, List.enumFrom, RRF_K, hba, hab,
    beq_self_eq_true, List.filterMap_cons, List.filterMap_nil,
    List.getElem?_cons_zero, Option.getD_some, List.isEmpty]

/-- C1 (witness for the amended theorem): two structurally neutral
candidates, instantiating the neutrality hypothesis. -/
theorem C1_amended_witness :
    (∀ r ∈ fusedList [sampleC, sampleD] [], structNeutral r = true) ∧
    (∃ recs : List VectorRecord,
      recs.Sublist (fusedList [sampleC, sampleD] []) ∧
      (search Env.default false 10 none (.ok ()) [sampleC, sampleD] (.ok [])
          (fun _ => [])).data =
        recs.map fun r =>
          mapRecordToChunk r
            ((3/2) * rrfValue (rrfScoreMap [sampleC, sampleD] []) (rrfKey r))) := by
  have hfused : fusedList [sampleC, sampleD] [] = [sampleC, sampleD] := by
    have hkc : (if ("c" : String) = "" then "z.ts" ++ ":" ++ toString 2 else "c") = "c" := by
      decide
    have hkd : (if ("d" : String) = "" then "w.ts" ++ ":" ++ toString 0 else "d") = "d" := by
      decide
    have hdc : (("d" : String) == "c") = false := by decide
    have hcd : (("c" : String) == "d") = false := by decide
    norm_num +decide [fusedList, rrfScoreMap, rrfAdd, bumpScore, rrfKey, buildDocMap,
      setDoc, setDocIfAbsent, scoreLe, List.insertionSort, List.orderedInsert,
      sampleC, sampleD, hkc, hkd, hdc, hcd, List.lookup, List.enum, List.enumFrom, RRF_K,
      beq_self_eq_true, List.filterMap_cons, List.filterMap_nil]
  have hneut : ∀ r ∈ fusedList [sampleC, sampleD] [], structNeutral r = true := by
    rw [hfused]
    intro r hr
    simp only [List.mem_cons, List.not_mem_nil, or_false] at hr
    rcases hr with rfl | rfl <;> decide
  exact ⟨hneut,
    C1_amended_rerank_disabled 10 [sampleC, sampleD] [] (fun _ => []) hneut⟩

end Osgrep

/-!
## MetaStore (`src/src/lib/download-worker.ts`, `MetaStore` class)

The meta file holds a JSON object mapping absolute paths to
`{hash, mtimeMs, size}` entries.  The filesystem is modelled as the pair
of the main file and its sibling `.tmp` file, each either absent, or
present with parseable content, or present but corrupt (unparseable
JSON).  `save` is the three-step sequence "write tmp, rename tmp over
main"; a crash can happen before the write, between write and rename, or
after the rename.
-/

namespace Osgrep

/-- A persisted meta entry: all three fields present. -/
structure MetaEntry where
  hash : String
  mtimeMs : ℚ
  size : ℚ
deriving DecidableEq, Repr

/-- A raw (parsed but unvalidated) entry: a bare string (legacy format) or
an object with possibly missing/mistyped fields (`none`). -/
inductive RawEntry where
  | str (s : String)
  | obj (hash : Option String) (mtimeMs : Option ℚ) (size : Option ℚ)
deriving DecidableEq, Repr

/-- `normalizeEntry`: a legacy string becomes `{hash: s, mtimeMs: 0,
size: 0}`; missing or mistyped fields normalize to `""`/`0`. -/
def normalizeEntry : RawEntry → MetaEntry
  | .str s => ⟨s, 0, 0⟩
  | .obj h m sz => ⟨h.getD "", m.getD 0, sz.getD 0⟩

/-- Content of a file on disk: parseable JSON or corrupt bytes. -/
inductive FileContent where
  | valid (entries : List (String × RawEntry))
  | corrupt
deriving DecidableEq, Repr

/-- The slice of the filesystem the MetaStore touches: the meta file and
its sibling `.tmp` file (`none` = the file does not exist). -/
structure MetaFS where
  main : Option FileContent
  tmp : Option FileContent
deriving DecidableEq, Repr

/-- Normalize every entry of a parsed object (the `Object.fromEntries`
mapping in `load`). -/
def normalizeAll (raw : List (String × RawEntry)) : List (String × MetaEntry) :=
  raw.map fun kv => (kv.1, normalizeEntry kv.2)

/-- `MetaStore.load`: read the main file; on a missing or corrupt main
file, fall back to the `.tmp` file and, when that parses, promote it by
copying it over the main file; otherwise start empty.  Returns the loaded
data and the (possibly repaired) filesystem.  Total: every failure path is
caught. -/
def load (fs : MetaFS) : List (String × MetaEntry) × MetaFS :=
  match fs.main with
  | some (.valid raw) => (normalizeAll raw, fs)
  | _ =>
    match fs.tmp with
    | some (.valid raw) => (normalizeAll raw, { fs with main := fs.tmp })
    | _ => ([], fs)

/-- Serialize the in-memory data back to file content
(`JSON.stringify(this.data)`: every field is written). -/
def serializeData (data : List (String × MetaEntry)) : FileContent :=
  .valid (data.map fun kv =>
    (kv.1, .obj (some kv.2.hash) (some kv.2.mtimeMs) (some kv.2.size)))

/-- The three crash points of one `save` body. -/
inductive CrashPoint where
  | beforeWrite
  | afterWrite
  | afterRename
deriving DecidableEq, Repr

/-- Effect of one `save` body on the filesystem when the process dies at
the given point: `writeFile(tmp)` then `rename(tmp, main)` (the rename
atomically replaces the main file and removes the tmp name). -/
def saveCrash (data : List (String × MetaEntry)) (fs : MetaFS) :
    CrashPoint → MetaFS
  | .beforeWrite => fs
  | .afterWrite => { fs with tmp := some (serializeData data) }
  | .afterRename => { main := some (serializeData data), tmp := none }

/-- One request on the serialized save queue: `.error` models a save whose
body threw (caught by the `.catch` recovery step), `.ok d` a save of
snapshot `d` that completes. -/
def runSaveQueue (reqs : List (Except Unit (List (String × MetaEntry))))
    (fs : MetaFS) : MetaFS :=
  reqs.foldl
    (fun fs req =>
      match req with
      | .error _ => fs
      | .ok d => saveCrash d fs .afterRename)
    fs

lemma normalizeAll_serialize (data : List (String × MetaEntry)) :
    normalizeAll (data.map fun kv =>
      (kv.1, RawEntry.obj (some kv.2.hash) (some kv.2.mtimeMs) (some kv.2.size))) =
      data := by
  induction data with
  | nil => rfl
  | cons kv rest ih => simp [normalizeAll, normalizeEntry] at ih ⊢; exact ih

end Osgrep

namespace Osgrep

/-- C6: `save` writes the snapshot to the sibling `.tmp` file and then
atomically renames it over the main file; after a crash at any point
during a save, a subsequent `load` never throws and returns either the
old main data, or the freshly written snapshot (recovered from `.tmp` and
promoted by copy onto the main file), or the empty map; and the
serialized save queue recovers from a previous failure, so a failed save
does not block later saves. -/
theorem C6_metastore_crash_safety :
    (∀ (data : List (String × MetaEntry)) (fs : MetaFS),
      load (saveCrash data fs .afterRename) =
        (data, { main := some (serializeData data), tmp := none })) ∧
    (∀ (data : List (String × MetaEntry)) (fs : MetaFS)
      (raw : List (String × RawEntry)),
      fs.main = some (.valid raw) →
      load (saveCrash data fs .afterWrite) =
        (normalizeAll raw, saveCrash data fs .afterWrite)) ∧
    (∀ (data : List (String × MetaEntry)) (fs : MetaFS),
      fs.main = none ∨ fs.main = some .corrupt →
      load (saveCrash data fs .afterWrite) =
        (data, { main := some (serializeData data),
                 tmp := some (serializeData data) })) ∧
    (∀ fs : MetaFS,
      (∃ raw, fs.main = some (.valid raw) ∧ load fs = (normalizeAll raw, fs)) ∨
      ((∀ raw, fs.main ≠ some (.valid raw)) ∧
        ∃ raw, fs.tmp = some (.valid raw) ∧
          load fs = (normalizeAll raw, { fs with main := fs.tmp })) ∨
      ((∀ raw, fs.main ≠ some (.valid raw)) ∧
        (∀ raw, fs.tmp ≠ some (.valid raw)) ∧ load fs = ([], fs))) ∧
    (∀ (rest : List (Except Unit (List (String × MetaEntry)))) (fs : MetaFS),
      runSaveQueue (.error () :: rest) fs = runSaveQueue rest fs) := by
  refine ⟨?_, ?_, ?_, ?_, ?_⟩
  · intro data fs
    simp [load, saveCrash, serializeData]
    exact normalizeAll_serialize data
  · intro data fs raw hmain
    simp [load, saveCrash, hmain]
  · intro data fs hmain
    rcases hmain with h | h <;>
      · simp [load, saveCrash, serializeData, h]
        exact normalizeAll_serialize data
  · intro fs
    match hm : fs.main with
    | some (.valid raw) =>
        left
        exact ⟨raw, rfl, by simp [load, hm]⟩
    | some .corrupt =>
        match ht : fs.tmp with
        | some (.valid raw) =>
            right; left
            exact ⟨by simp [hm], raw, rfl, by simp [load, hm, ht]⟩
        | some .corrupt =>
            right; right
            exact ⟨by simp [hm], by simp [ht], by simp [load, hm, ht]⟩
        | none =>
            right; right
            exact ⟨by simp [hm], by simp [ht], by simp [load, hm, ht]⟩
    | none =>
        match ht : fs.tmp with
        | some (.valid raw) =>
            right; left
            exact ⟨by simp [hm], raw, rfl, by simp [load, hm, ht]⟩
        | some .corrupt =>
            right; right
            exact ⟨by simp [hm], by simp [ht], by simp [load, hm, ht]⟩
        | none =>
            right; right
            exact ⟨by simp [hm], by simp [ht], by simp [load, hm, ht]⟩
  · intro rest fs
    rfl

/-- C6 (witness): a crash between write and rename over a corrupt main
file recovers the fresh snapshot from `.tmp`, instantiating the
hypotheses of `C6_metastore_crash_safety`. -/
theorem C6_metastore_witness :
    ((⟨some .corrupt, none⟩ : MetaFS).main = none ∨
      (⟨some .corrupt, none⟩ : MetaFS).main = some .corrupt) ∧
    load (saveCrash [("/p", ⟨"h1", 1, 2⟩)] ⟨some .corrupt, none⟩ .afterWrite) =
      ([("/p", ⟨"h1", 1, 2⟩)],
        { main := some (serializeData [("/p", ⟨"h1", 1, 2⟩)]),
          tmp := some (serializeData [("/p", ⟨"h1", 1, 2⟩)]) }) ∧
    ((⟨some (.valid [("/q", .str "legacy")]), none⟩ : MetaFS).main =
        some (.valid [("/q", .str "legacy")]) ∧
      load (saveCrash [("/p", ⟨"h1", 1, 2⟩)]
          ⟨some (.valid [("/q", .str "legacy")]), none⟩ .afterWrite) =
        (normalizeAll [("/q", .str "legacy")],
          saveCrash [("/p", ⟨"h1", 1, 2⟩)]
            ⟨some (.valid [("/q", .str "legacy")]), none⟩ .afterWrite)) :=
  ⟨Or.inr rfl,
   C6_metastore_crash_safety.2.2.1 [("/p", ⟨"h1", 1, 2⟩)]
     ⟨some .corrupt, none⟩ (Or.inr rfl),
   rfl,
   C6_metastore_crash_safety.2.1 [("/p", ⟨"h1", 1, 2⟩)]
     ⟨some (.valid [("/q", .str "legacy")]), none⟩ [("/q", .str "legacy")] rfl⟩

end Osgrep

/-!
## Worker restart single-flight (`src/src/lib/worker-manager.ts`,
`WorkerManager.restartWorker`)

JavaScript is single-threaded: interleaving between two concurrent
`restartWorker` calls on the same slot can happen only at `await` points.
A call's first synchronous segment either observes an in-flight restart
and becomes a *joiner* (the early `return inFlight`, which performs no
effect and merely awaits the existing promise), or rejects the slot's
pending requests, calls `terminate()` on the worker, stores the restart
promise in `restartInFlight`, and suspends — all in one atomic segment.
The restart body's completion (the new worker is constructed) is another
atomic segment, after which the initiator resumes and deletes the
in-flight marker while any joiner simply resumes.  The state machine
below has exactly these atomic segments; `terms`, `creates` and `rejects`
count `terminate()` calls, `createWorker` calls and
`rejectPendingForWorker` batches on the slot.
-/

namespace Osgrep

/-- Where one `restartWorker` call stands. -/
inductive RPhase where
  | ready       -- the call has not yet run its first synchronous segment
  | initiator   -- it started the restart and awaits the body
  | joined      -- it observed an in-flight restart and awaits that promise
  | doneInit    -- initiator completed (and deleted the in-flight marker)
  | doneJoin    -- joiner completed
deriving DecidableEq, Repr

/-- Shared state of one slot plus the two competing restart calls. -/
structure RState where
  a : RPhase
  b : RPhase
  inFlight : Bool      -- restartInFlight.has(slot)
  bodyStarted : Bool   -- the restart body exists
  bodyDone : Bool      -- the restart body has completed
  terms : ℕ            -- worker.terminate() calls on this slot
  creates : ℕ          -- createWorker(slot) calls
  rejects : ℕ          -- rejectPendingForWorker(slot) batches
deriving DecidableEq, Repr

/-- Initial state: both calls pending, no restart in flight. -/
def rInit : RState := ⟨.ready, .ready, false, false, false, 0, 0, 0⟩

/-- One scheduling step: advance call A, advance call B, or complete the
restart body. -/
inductive REv where
  | stepA
  | stepB
  | stepBody
deriving DecidableEq, Repr

/-- Advance one call given its phase; returns the new phase and state. -/
def stepPhase (s : RState) : RPhase → RPhase × RState
  | .ready =>
      if s.inFlight then (.joined, s)
      else (.initiator,
        { s with inFlight := true, bodyStarted := true,
                 terms := s.terms + 1, rejects := s.rejects + 1 })
  | .initiator =>
      if s.bodyDone then (.doneInit, { s with inFlight := false }) else (.initiator, s)
  | .joined =>
      if s.bodyDone then (.doneJoin, s) else (.joined, s)
  | .doneInit => (.doneInit, s)
  | .doneJoin => (.doneJoin, s)

/-- The scheduler-driven transition function. -/
def rStep (s : RState) : REv → RState
  | .stepA => let p := stepPhase s s.a; { p.2 with a := p.1 }
  | .stepB => let p := stepPhase s s.b; { p.2 with b := p.1 }
  | .stepBody =>
      if s.bodyStarted ∧ ¬s.bodyDone then
        { s with bodyDone := true, creates := s.creates + 1 }
      else s

/-- Run a schedule from the initial state. -/
def rRun (evs : List REv) : RState := evs.foldl rStep rInit

/-- Does this phase hold the initiator role? -/
def isInitRole : RPhase → Bool
  | .initiator => true
  | .doneInit => true
  | _ => false

/-- Does this phase hold the joiner role? -/
def isJoinRole : RPhase → Bool
  | .joined => true
  | .doneJoin => true
  | _ => false

/-- Reachability invariant tying the effect counters to the roles. -/
def RInv (s : RState) : Prop :=
  s.rejects = s.terms ∧
  s.terms = (if isInitRole s.a then 1 else 0) + (if isInitRole s.b then 1 else 0) ∧
  s.creates = (if s.bodyDone then 1 else 0) ∧
  (s.bodyDone = true → s.bodyStarted = true) ∧
  (s.bodyStarted = true → 1 ≤ s.terms) ∧
  (s.inFlight = (s.a = .initiator || s.b = .initiator)) ∧
  ¬(s.a = .initiator ∧ s.b = .initiator) ∧
  (isJoinRole s.a = true → isInitRole s.b = true) ∧
  (isJoinRole s.b = true → isInitRole s.a = true) ∧
  ((s.a = .doneInit ∨ s.a = .doneJoin ∨ s.b = .doneInit ∨ s.b = .doneJoin) →
    s.bodyDone = true)

lemma rInv_init : RInv rInit := by
  simp [RInv, rInit, isInitRole, isJoinRole]

lemma rInv_step {s : RState} (h : RInv s) (e : REv) : RInv (rStep s e) := by
  obtain ⟨a, b, inF, bs, bd, t, c, rj⟩ := s
  obtain ⟨h1, h2, h3, h4, h5, h6, h7, h8, h9, h10⟩ := h
  cases e <;> cases a <;> cases b <;> cases inF <;> cases bs <;> cases bd <;>
    simp_all [rStep, stepPhase, RInv, isInitRole, isJoinRole]

lemma rInv_run (evs : List REv) : RInv (rRun evs) := by
  rw [rRun]
  have : ∀ (l : List REv) (s : RState), RInv s → RInv (l.foldl rStep s) := by
    intro l
    induction l with
    | nil => intro s h; exact h
    | cons e es ih => intro s h; exact ih _ (rInv_step h e)
  exact this evs rInit rInv_init

end Osgrep

namespace Osgrep

/-- C7: restart is single-flight per slot.  For every interleaving of two
restart requests on the same slot in which both requests complete and at
least one of them joined an in-flight restart (i.e. the requests were
concurrent), exactly one `terminate()` happens, exactly one replacement
worker is created, and the slot's pending requests are rejected exactly
once. -/
theorem C7_restart_single_flight :
    ∀ (evs : List REv),
      ((rRun evs).a = .doneJoin ∨ (rRun evs).b = .doneJoin) →
      ((rRun evs).a = .doneInit ∨ (rRun evs).a = .doneJoin) →
      ((rRun evs).b = .doneInit ∨ (rRun evs).b = .doneJoin) →
      (rRun evs).terms = 1 ∧ (rRun evs).creates = 1 ∧ (rRun evs).rejects = 1 := by
  intro evs hjoin hadone hbdone
  obtain ⟨h1, h2, h3, h4, h5, h6, h7, h8, h9, h10⟩ := rInv_run evs
  have hbd : (rRun evs).bodyDone = true := by
    rcases hjoin with hj | hj
    · exact h10 (Or.inr (Or.inl hj))
    · exact h10 (Or.inr (Or.inr (Or.inr hj)))
  have hcreates : (rRun evs).creates = 1 := by rw [h3, if_pos hbd]
  rcases hjoin with hj | hj
  · have hbrole : isInitRole (rRun evs).b = true :=
      h8 (by rw [hj]; rfl)
    have harole : isInitRole (rRun evs).a = false := by rw [hj]; rfl
    have hterms : (rRun evs).terms = 1 := by
      rw [h2, harole, hbrole]
      rfl
    exact ⟨hterms, hcreates, h1.trans hterms⟩
  · have harole : isInitRole (rRun evs).a = true :=
      h9 (by rw [hj]; rfl)
    have hbrole : isInitRole (rRun evs).b = false := by rw [hj]; rfl
    have hterms : (rRun evs).terms = 1 := by
      rw [h2, harole, hbrole]
      rfl
    exact ⟨hterms, hcreates, h1.trans hterms⟩

/-- C7 (witness): the canonical concurrent schedule — A starts the
restart, B joins it, the body completes, both resume — performs exactly
one restart. -/
theorem C7_restart_witness :
    ((rRun [.stepA, .stepB, .stepBody, .stepA, .stepB]).a = .doneJoin ∨
      (rRun [.stepA, .stepB, .stepBody, .stepA, .stepB]).b = .doneJoin) ∧
    (rRun [.stepA, .stepB, .stepBody, .stepA, .stepB]).terms = 1 ∧
    (rRun [.stepA, .stepB, .stepBody, .stepA, .stepB]).creates = 1 ∧
    (rRun [.stepA, .stepB, .stepBody, .stepA, .stepB]).rejects = 1 :=
  ⟨by decide,
   C7_restart_single_flight [.stepA, .stepB, .stepBody, .stepA, .stepB]
     (by decide) (by decide) (by decide)⟩

end Osgrep

/-!
## Traversal with symlink cycles (`src/src/lib/file.ts`,
`NodeFileSystem.getAllFilesRecursive`)

Directories are identified by their canonical (realpath) identity; an
entry of a directory resolves (following symlinks) to a file, to a
canonical directory — possibly an ancestor, which is how symlink cycles
arise — or fails to resolve (broken symlink).  Hidden entries are already
filtered out (orthogonal to this claim).  A directory entry may be a
nested git repository (`git.isGitRepository` follows the symlink, so the
answer is a property of the canonical directory): the source then
enumerates the subtree via `git ls-files` (modelled by the external
`gitFiles` listing) **without adding the repository's canonical path to
the visited set**, falling back to the standard recursion only when that
enumeration yields nothing.  The traversal carries the mutable `visited`
set through the recursion exactly as the source shares one `Set` object
across all recursive calls.  A fuel parameter bounds the recursion depth;
the termination theorem shows that `|dirUniv| + 1` fuel always suffices,
i.e. the real (unbounded) recursion terminates.
-/

namespace Osgrep

/-- A directory entry after `resolveEntry`: a file, a canonical directory,
or a broken symlink. -/
inductive FSEntry where
  | file (f : ℕ)
  | dir (d : ℕ)
  | broken
deriving DecidableEq, Repr

/-- A filesystem graph: the finite set of canonical directories, the
resolved entries of each, which canonical directories are nested git
repositories, and what `git ls-files` yields for them (`[]` models a git
enumeration that yields nothing and triggers the fallback). -/
structure FSGraph where
  dirUniv : Finset ℕ
  entries : ℕ → List FSEntry
  isRepo : ℕ → Bool
  gitFiles : ℕ → List ℕ

/-- Result of a traversal: the visited set, the yielded files (in order),
and the directories whose entries were read via `readdir` (in order). -/
abbrev TravResult := Finset ℕ × List ℕ × List ℕ

mutual

/-- `getAllFilesRecursive(dir, root, visited)`: resolve the directory
(resolution failure of the root is modelled by `d ∉ dirUniv`), skip it if
its canonical path was already visited, otherwise add it to `visited` and
walk its entries.  `none` = out of fuel. -/
def traverseDir (g : FSGraph) : ℕ → ℕ → Finset ℕ → Option TravResult
  | 0, _, _ => none
  | fuel + 1, d, visited =>
      if d ∉ g.dirUniv then some (visited, [], [])
      else if d ∈ visited then some (visited, [], [])
      else
        match traverseEntries g fuel (g.entries d) (insert d visited) with
        | none => none
        | some (v, fs, ds) => some (v, fs, d :: ds)
termination_by fuel d visited => (fuel, 0)

/-- The `for (const entry of entries)` loop: yield files, skip broken
symlinks, skip directory entries whose canonical path is already visited.
A directory entry that is a nested git repository is enumerated via
`git ls-files` — without marking its canonical path visited — and the
standard recursion is used as a fallback only when git yields nothing;
every other directory entry recurses, threading the shared visited set. -/
def traverseEntries (g : FSGraph) (fuel : ℕ) :
    List FSEntry → Finset ℕ → Option TravResult
  | [], visited => some (visited, [], [])
  | .broken :: rest, visited => traverseEntries g fuel rest visited
  | .file f :: rest, visited =>
      match traverseEntries g fuel rest visited with
      | none => none
      | some (v, fs, ds) => some (v, f :: fs, ds)
  | .dir d :: rest, visited =>
      if d ∈ visited then traverseEntries g fuel rest visited
      else if g.isRepo d ∧ ¬(g.gitFiles d).isEmpty then
        match traverseEntries g fuel rest visited with
        | none => none
        | some (v, fs, ds) => some (v, g.gitFiles d ++ fs, ds)
      else
        match traverseDir g fuel d visited with
        | none => none
        | some (v1, fs1, ds1) =>
            match traverseEntries g fuel rest v1 with
            | none => none
            | some (v2, fs2, ds2) => some (v2, fs1 ++ fs2, ds1 ++ ds2)
termination_by es visited => (fuel, es.length + 1)

end

/-- The file entries of a directory, in order. -/
def fileEntriesOf (g : FSGraph) (d : ℕ) : List ℕ :=
  (g.entries d).filterMap fun e =>
    match e with
    | .file f => some f
    | _ => none

/-- The file entries appearing directly in an entry list. -/
def filesOf (es : List FSEntry) : List ℕ :=
  es.filterMap fun e =>
    match e with
    | .file f => some f
    | _ => none

lemma trav_mono_entries (g : FSGraph) (fuel : ℕ)
    (hrec : ∀ (d : ℕ) (v : Finset ℕ) (r : TravResult),
      traverseDir g fuel d v = some r → v ⊆ r.1) :
    ∀ (es : List FSEntry) (v : Finset ℕ) (r : TravResult),
      traverseEntries g fuel es v = some r → v ⊆ r.1 := by
  intro es
  induction es with
  | nil =>
      intro v r h
      simp [traverseEntries] at h
      rw [← h]
  | cons e rest ih =>
      intro v r h
      cases e with
      | broken =>
          rw [traverseEntries] at h
          exact ih v r h
      | file f =>
          rw [traverseEntries] at h
          cases hrec2 : traverseEntries g fuel rest v with
          | none => rw [hrec2] at h; simp at h
          | some r1 =>
              rw [hrec2] at h
              simp at h
              have hsub := ih v r1 hrec2
              rw [← h]
              exact hsub
      | dir d =>
          rw [traverseEntries] at h
          by_cases hdv : d ∈ v
          · rw [if_pos hdv] at h
            exact ih v r h
          · rw [if_neg hdv] at h
            by_cases hgit : g.isRepo d ∧ ¬(g.gitFiles d).isEmpty
            · rw [if_pos hgit] at h
              cases hrec2 : traverseEntries g fuel rest v with
              | none => rw [hrec2] at h; simp at h
              | some r1 =>
                  obtain ⟨v1, fs1, ds1⟩ := r1
                  rw [hrec2] at h
                  simp at h
                  have hsub := ih v (v1, fs1, ds1) hrec2
                  rw [← h]
                  exact hsub
            · rw [if_neg hgit] at h
              cases hrec1 : traverseDir g fuel d v with
              | none => rw [hrec1] at h; simp at h
              | some r1 =>
                  obtain ⟨v1, fs1, ds1⟩ := r1
                  rw [hrec1] at h
                  simp only at h
                  cases hrec2 : traverseEntries g fuel rest v1 with
                  | none => rw [hrec2] at h; simp at h
                  | some r2 =>
                      obtain ⟨v2, fs2, ds2⟩ := r2
                      rw [hrec2] at h
                      simp at h
                      have hs1 := hrec d v (v1, fs1, ds1) hrec1
                      have hs2 := ih v1 (v2, fs2, ds2) hrec2
                      rw [← h]
                      exact hs1.trans hs2

lemma trav_mono_dir (g : FSGraph) :
    ∀ (fuel : ℕ) (d : ℕ) (v : Finset ℕ) (r : TravResult),
      traverseDir g fuel d v = some r → v ⊆ r.1 := by
  intro fuel
  induction fuel with
  | zero =>
      intro d v r h
      simp [traverseDir] at h
  | succ n ih =>
      intro d v r h
      rw [traverseDir] at h
      by_cases h1 : d ∉ g.dirUniv
      · rw [if_pos h1] at h
        simp at h
        rw [← h]
      · rw [if_neg h1] at h
        by_cases h2 : d ∈ v
        · rw [if_pos h2] at h
          simp at h
          rw [← h]
        · rw [if_neg h2] at h
          cases hrec : traverseEntries g n (g.entries d) (insert d v) with
          | none => rw [hrec] at h; simp at h
          | some r1 =>
              rw [hrec] at h
              simp at h
              have hsub := trav_mono_entries g n ih (g.entries d) (insert d v) r1 hrec
              rw [← h]
              exact (Finset.subset_insert d v).trans hsub

/-- Payload proved about one directory traversal: the `readdir`-processed
directories are fresh w.r.t. the incoming visited set and duplicate-free,
the final visited set is the union, and — when no nested git repository
exists — the yielded files are exactly the file entries of the processed
directories (as a multiset).  The file clause must exclude git
repositories: the source enumerates them via `git ls-files` without
marking their canonical path visited, so their files can repeat. -/
def DirSpec (g : FSGraph) (v v' : Finset ℕ) (fs ds : List ℕ) : Prop :=
  (∀ x ∈ ds, x ∉ v) ∧ ds.Nodup ∧ v' = v ∪ ds.toFinset ∧
    ((∀ x, g.isRepo x = false) → fs.Perm (ds.flatMap (fileEntriesOf g)))

lemma trav_spec_entries (g : FSGraph) (fuel : ℕ)
    (hrec : ∀ (d : ℕ) (v v' : Finset ℕ) (fs ds : List ℕ),
      traverseDir g fuel d v = some (v', fs, ds) → DirSpec g v v' fs ds) :
    ∀ (es : List FSEntry) (v v' : Finset ℕ) (fs ds : List ℕ),
      traverseEntries g fuel es v = some (v', fs, ds) →
      (∀ x ∈ ds, x ∉ v) ∧ ds.Nodup ∧ v' = v ∪ ds.toFinset ∧
        ((∀ x, g.isRepo x = false) →
          fs.Perm (filesOf es ++ ds.flatMap (fileEntriesOf g))) := by
  intro es
  induction es with
  | nil =>
      intro v v' fs ds h
      simp [traverseEntries] at h
      obtain ⟨rfl, rfl, rfl⟩ := h
      exact ⟨by simp, List.nodup_nil, by simp, fun _ => by simp [filesOf]⟩
  | cons e rest ih =>
      intro v v' fs ds h
      cases e with
      | broken =>
          rw [traverseEntries] at h
          have hr := ih v v' fs ds h
          refine ⟨hr.1, hr.2.1, hr.2.2.1, fun hng => ?_⟩
          simpa [filesOf] using hr.2.2.2 hng
      | file f =>
          rw [traverseEntries] at h
          cases hrec2 : traverseEntries g fuel rest v with
          | none => rw [hrec2] at h; simp at h
          | some r1 =>
              obtain ⟨v1, fs1, ds1⟩ := r1
              rw [hrec2] at h
              simp at h
              obtain ⟨rfl, rfl, rfl⟩ := h
              obtain ⟨ha, hb, hc, hd⟩ := ih v v1 fs1 ds1 hrec2
              refine ⟨ha, hb, hc, fun hng => ?_⟩
              have hfl : filesOf (FSEntry.file f :: rest) = f :: filesOf rest := by
                simp [filesOf]
              rw [hfl]
              exact (hd hng).cons f
      | dir d =>
          rw [traverseEntries] at h
          have hfl : filesOf (FSEntry.dir d :: rest) = filesOf rest := by
            simp [filesOf]
          by_cases hdv : d ∈ v
          · rw [if_pos hdv] at h
            have hr := ih v v' fs ds h
            refine ⟨hr.1, hr.2.1, hr.2.2.1, fun hng => ?_⟩
            rw [hfl]
            exact hr.2.2.2 hng
          · rw [if_neg hdv] at h
            by_cases hgit : g.isRepo d ∧ ¬(g.gitFiles d).isEmpty
            · rw [if_pos hgit] at h
              cases hrec2 : traverseEntries g fuel rest v with
              | none => rw [hrec2] at h; simp at h
              | some r1 =>
                  obtain ⟨v1, fs1, ds1⟩ := r1
                  rw [hrec2] at h
                  simp at h
                  obtain ⟨rfl, rfl, rfl⟩ := h
                  obtain ⟨ha, hb, hc, _⟩ := ih v v1 fs1 ds1 hrec2
                  refine ⟨ha, hb, hc, fun hng => ?_⟩
                  exact absurd hgit.1 (by simp [hng d])
            · rw [if_neg hgit] at h
              cases hrec1 : traverseDir g fuel d v with
              | none => rw [hrec1] at h; simp at h
              | some r1 =>
                  obtain ⟨v1, fs1, ds1⟩ := r1
                  rw [hrec1] at h
                  simp only at h
                  cases hrec2 : traverseEntries g fuel rest v1 with
                  | none => rw [hrec2] at h; simp at h
                  | some r2 =>
                      obtain ⟨v2, fs2, ds2⟩ := r2
                      rw [hrec2] at h
                      simp at h
                      obtain ⟨rfl, rfl, rfl⟩ := h
                      obtain ⟨ha1, hb1, hc1, hd1⟩ := hrec d v v1 fs1 ds1 hrec1
                      obtain ⟨ha2, hb2, hc2, hd2⟩ := ih v1 v2 fs2 ds2 hrec2
                      have hfresh : ∀ x ∈ ds1 ++ ds2, x ∉ v := by
                        intro x hx
                        rcases List.mem_append.mp hx with hx1 | hx2
                        · exact ha1 x hx1
                        · intro hxv
                          exact ha2 x hx2 (hc1 ▸ Finset.mem_union_left _ hxv)
                      have hdisj : ∀ x ∈ ds1, x ∉ ds2 := by
                        intro x hx1 hx2
                        exact ha2 x hx2
                          (hc1 ▸ Finset.mem_union_right _ (List.mem_toFinset.mpr hx1))
                      have hnd : (ds1 ++ ds2).Nodup := by
                        rw [List.nodup_append]
                        exact ⟨hb1, hb2, fun x hx1 hx2 => hdisj x hx1 hx2⟩
                      have hun : v2 = v ∪ (ds1 ++ ds2).toFinset := by
                        rw [hc2, hc1]
                        ext x
                        simp [Finset.mem_union, List.mem_toFinset, or_assoc]
                      refine ⟨hfresh, hnd, hun, fun hng => ?_⟩
                      have hstep1 : (fs1 ++ fs2).Perm
                          (ds1.flatMap (fileEntriesOf g) ++
                            (filesOf rest ++ ds2.flatMap (fileEntriesOf g))) :=
                        (hd1 hng).append (hd2 hng)
                      have hstep2 : (ds1.flatMap (fileEntriesOf g) ++
                          (filesOf rest ++ ds2.flatMap (fileEntriesOf g))).Perm
                          (filesOf rest ++
                            (ds1.flatMap (fileEntriesOf g) ++
                              ds2.flatMap (fileEntriesOf g))) := by
                        rw [← List.append_assoc, ← List.append_assoc]
                        exact (List.perm_append_comm).append_right _
                      rw [hfl, List.flatMap_append]
                      exact hstep1.trans hstep2

lemma trav_spec_dir (g : FSGraph) : ∀ (fuel : ℕ) (d : ℕ)
    (v v' : Finset ℕ) (fs ds : List ℕ),
    traverseDir g fuel d v = some (v', fs, ds) → DirSpec g v v' fs ds := by
  intro fuel
  induction fuel with
  | zero =>
      intro d v v' fs ds h
      simp [traverseDir] at h
  | succ n ih =>
      intro d v v' fs ds h
      rw [traverseDir] at h
      by_cases h1 : d ∉ g.dirUniv
      · rw [if_pos h1] at h
        simp at h
        obtain ⟨rfl, rfl, rfl⟩ := h
        exact ⟨by simp, List.nodup_nil, by simp, fun _ => by simp⟩
      · rw [if_neg h1] at h
        by_cases h2 : d ∈ v
        · rw [if_pos h2] at h
          simp at h
          obtain ⟨rfl, rfl, rfl⟩ := h
          exact ⟨by simp, List.nodup_nil, by simp, fun _ => by simp⟩
        · rw [if_neg h2] at h
          cases hrec : traverseEntries g n (g.entries d) (insert d v) with
          | none => rw [hrec] at h; simp at h
          | some r1 =>
              obtain ⟨v1, fs1, ds1⟩ := r1
              rw [hrec] at h
              simp at h
              obtain ⟨rfl, rfl, rfl⟩ := h
              obtain ⟨ha, hb, hc, hd⟩ := trav_spec_entries g n ih (g.entries d)
                (insert d v) v1 fs1 ds1 hrec
              refine ⟨?_, ?_, ?_, ?_⟩
              · intro x hx
                rcases List.mem_cons.mp hx with rfl | hx1
                · exact h2
                · intro hxv
                  exact ha x hx1 (Finset.mem_insert_of_mem hxv)
              · rw [List.nodup_cons]
                refine ⟨fun hmem => ?_, hb⟩
                exact ha d hmem (Finset.mem_insert_self d v)
              · rw [hc]
                ext x
                simp [Finset.mem_insert, Finset.mem_union, List.mem_toFinset]
              · intro hng
                have hfe : filesOf (g.entries d) = fileEntriesOf g d := by
                  simp [filesOf, fileEntriesOf]
                rw [List.flatMap_cons]
                have := hd hng
                rw [hfe] at this
                exact this

lemma trav_suff_entries (g : FSGraph) (fuel : ℕ)
    (hrec : ∀ (d : ℕ) (v : Finset ℕ), (g.dirUniv \ v).card < fuel →
      (traverseDir g fuel d v).isSome) :
    ∀ (es : List FSEntry) (v : Finset ℕ),
      (g.dirUniv \ v).card < fuel → (traverseEntries g fuel es v).isSome := by
  intro es
  induction es with
  | nil =>
      intro v hcard
      simp [traverseEntries]
  | cons e rest ih =>
      intro v hcard
      cases e with
      | broken =>
          rw [traverseEntries]
          exact ih v hcard
      | file f =>
          rw [traverseEntries]
          obtain ⟨r1, hr1⟩ := Option.isSome_iff_exists.mp (ih v hcard)
          rw [hr1]
          obtain ⟨v1, fs1, ds1⟩ := r1
          simp
      | dir d =>
          rw [traverseEntries]
          by_cases hdv : d ∈ v
          · rw [if_pos hdv]
            exact ih v hcard
          · rw [if_neg hdv]
            by_cases hgit : g.isRepo d ∧ ¬(g.gitFiles d).isEmpty
            · rw [if_pos hgit]
              obtain ⟨r1, hr1⟩ := Option.isSome_iff_exists.mp (ih v hcard)
              obtain ⟨v1, fs1, ds1⟩ := r1
              simp [hr1]
            · rw [if_neg hgit]
              obtain ⟨r1, hr1⟩ := Option.isSome_iff_exists.mp (hrec d v hcard)
              rw [hr1]
              obtain ⟨v1, fs1, ds1⟩ := r1
              have hsub : v ⊆ v1 := trav_mono_dir g fuel d v (v1, fs1, ds1) hr1
              have hcard1 : (g.dirUniv \ v1).card < fuel :=
                lt_of_le_of_lt
                  (Finset.card_le_card (Finset.sdiff_subset_sdiff
                    (Finset.Subset.refl _) hsub)) hcard
              obtain ⟨r2, hr2⟩ := Option.isSome_iff_exists.mp (ih v1 hcard1)
              obtain ⟨v2, fs2, ds2⟩ := r2
              simp [hr2]

lemma trav_suff_dir (g : FSGraph) :
    ∀ (fuel : ℕ) (d : ℕ) (v : Finset ℕ),
      (g.dirUniv \ v).card < fuel → (traverseDir g fuel d v).isSome := by
  intro fuel
  induction fuel with
  | zero => intro d v hcard; omega
  | succ n ih =>
      intro d v hcard
      rw [traverseDir]
      by_cases h1 : d ∉ g.dirUniv
      · rw [if_pos h1]; simp
      · rw [if_neg h1]
        by_cases h2 : d ∈ v
        · rw [if_pos h2]; simp
        · rw [if_neg h2]
          have hdmem : d ∈ g.dirUniv \ v :=
            Finset.mem_sdiff.mpr ⟨not_not.mp (by simpa using h1), h2⟩
          have hcard1 : (g.dirUniv \ insert d v).card < n := by
            have hform : g.dirUniv \ insert d v = (g.dirUniv \ v).erase d := by
              ext x
              simp [Finset.mem_sdiff, Finset.mem_erase, Finset.mem_insert]
              tauto
            rw [hform, Finset.card_erase_of_mem hdmem]
            have hpos : 0 < (g.dirUniv \ v).card := Finset.card_pos.mpr ⟨d, hdmem⟩
            omega
          obtain ⟨r1, hr1⟩ := Option.isSome_iff_exists.mp
            (trav_suff_entries g n ih (g.entries d) (insert d v) hcard1)
          rw [hr1]
          obtain ⟨v1, fs1, ds1⟩ := r1
          simp

/-- A directory (canonical id 0) containing two symlink entries, both
resolving to the same nested git repository (canonical id 1), whose
`git ls-files` enumeration yields file 9. -/
def gitDupG : FSGraph :=
  ⟨{0, 1}, fun d => if d = 0 then [.dir 1, .dir 1] else [],
   fun d => d == 1, fun d => if d = 1 then [9] else []⟩

/-- C8 (counterexample): the traversal yields the files of the nested git
repository twice — one copy per symlink — because the nested-git branch of
`getAllFilesRecursive` enumerates the repository via `git ls-files`
without ever adding its canonical path to the visited set, so the
`visited.has(realPath)` skip never fires for it.  This falsifies "yields
the files of each real (canonical) directory exactly once" as stated for
every directory tree. -/
theorem C8_counterexample_git_dup :
    traverseDir gitDupG 3 0 ∅ = some ({0}, [9, 9], [0]) ∧
    List.count 9 [9, 9] = 2 := by
  constructor
  · rw [traverseDir]
    rw [if_neg (by decide), if_neg (by decide)]
    rw [show gitDupG.entries 0 = [.dir 1, .dir 1] from rfl]
    rw [traverseEntries]
    rw [if_neg (by decide), if_pos (by exact ⟨rfl, by decide⟩)]
    rw [traverseEntries]
    rw [if_neg (by decide), if_pos (by exact ⟨rfl, by decide⟩)]
    rw [show traverseEntries gitDupG 2 [] (insert 0 ∅) =
      some (insert 0 ∅, [], []) from by rw [traverseEntries]]
    rfl
  · rfl

/-- C8 (amended): for every directory tree — symlink cycles included —
the traversal terminates (fuel `|dirUniv| + 1` always suffices, i.e. the
recursion depth is bounded by the number of canonical directories), the
canonical directories whose entries are read via `readdir` are pairwise
distinct (a directory whose canonical path is already in the visited set
is skipped), and the final visited set is exactly the set of processed
directories.  In trees containing no nested git repository, the yielded
files are exactly the file entries of each processed directory, each
contributed exactly once; a nested git repository reachable through
several symlinks is enumerated via `git ls-files` once per encounter, so
its files can repeat (see the counterexample). -/
theorem C8_amended_traversal :
    ∀ (g : FSGraph) (root : ℕ) (fuel : ℕ),
      g.dirUniv.card < fuel →
      ∃ (v' : Finset ℕ) (files dirs : List ℕ),
        traverseDir g fuel root ∅ = some (v', files, dirs) ∧
        dirs.Nodup ∧
        v' = dirs.toFinset ∧
        ((∀ x, g.isRepo x = false) →
          files.Perm (dirs.flatMap (fileEntriesOf g))) := by
  intro g root fuel hfuel
  have hcard : (g.dirUniv \ ∅).card < fuel := by simpa using hfuel
  obtain ⟨r, hr⟩ := Option.isSome_iff_exists.mp (trav_suff_dir g fuel root ∅ hcard)
  obtain ⟨v', fs, ds⟩ := r
  obtain ⟨ha, hb, hc, hd⟩ := trav_spec_dir g fuel root ∅ v' fs ds hr
  exact ⟨v', fs, ds, hr, hb, by simpa using hc, hd⟩

/-- A directory (canonical id 0) containing a symlink to itself and one
real file; no git repositories. -/
def cyclicG : FSGraph :=
  ⟨{0}, fun d => if d = 0 then [.dir 0, .file 7] else [],
   fun _ => false, fun _ => []⟩

/-- C8 (witness for the amended theorem): the self-symlink directory
terminates within fuel 2 and yields its file exactly once. -/
theorem C8_amended_witness :
    cyclicG.dirUniv.card < 2 ∧
    ∃ (v' : Finset ℕ) (files dirs : List ℕ),
      traverseDir cyclicG 2 0 ∅ = some (v', files, dirs) ∧
      dirs.Nodup ∧
      v' = dirs.toFinset ∧
      ((∀ x, cyclicG.isRepo x = false) →
        files.Perm (dirs.flatMap (fileEntriesOf cyclicG))) :=
  ⟨by decide, C8_amended_traversal cyclicG 0 2 (by decide)⟩

end Osgrep

/-!
## `WorkerManager.getEmbeddings` (`src/src/lib/worker-manager.ts`)

The LRU vector cache's `get` is modelled as a partial map
`String → Option (List ℚ)` (the cache class itself lives in `./lru`,
outside `src/`; only its `get`/`set` contract is needed here).  The
`EmbedBatch` request to the worker pool answers one vector per input
text, modelled by an `embed` function applied to the batch.  The results
array is modelled as `ℕ → Option (List ℚ)` (a JavaScript array assigned
at sparse indices); `getEmbeddings` returns the final vector list and the
batch of texts actually dispatched to a worker (empty = no worker
request was made).
-/

namespace Osgrep

/-- First loop of `getEmbeddings`: walk `texts` from position `i`,
serving cache hits into the results array and collecting the
`(index, text)` pairs that must be embedded. -/
def pass1Go (cache : String → Option (List ℚ)) :
    ℕ → List String → List (ℕ × String) × (ℕ → Option (List ℚ))
  | _, [] => ([], fun _ => none)
  | i, t :: ts =>
      let r := pass1Go cache (i + 1) ts
      match cache t with
      | some v => (r.1, Function.update r.2 i (some v))
      | none => ((i, t) :: r.1, r.2)

/-- `WorkerManager.getEmbeddings`: consult the cache first; if every text
was cached return immediately (no worker request); otherwise send exactly
the uncached texts as one batch and fill the remaining slots from
the reply. -/
def getEmbeddings (cache : String → Option (List ℚ))
    (embed : String → List ℚ) (texts : List String) :
    List (List ℚ) × List String :=
  let p := pass1Go cache 0 texts
  if p.1.isEmpty then
    ((List.range texts.length).map fun i => (p.2 i).getD [], [])
  else
    let neededTexts := p.1.map Prod.snd
    let computed := neededTexts.map embed
    let results2 := (p.1.zip computed).foldl
      (fun (r : ℕ → Option (List ℚ)) (q : (ℕ × String) × List ℚ) =>
        Function.update r q.1.1 (some q.2)) p.2
    ((List.range texts.length).map fun i => (results2 i).getD [], neededTexts)

lemma pass1Go_support (cache : String → Option (List ℚ)) :
    ∀ (ts : List String) (i j : ℕ), j < i → (pass1Go cache i ts).2 j = none := by
  intro ts
  induction ts with
  | nil => intro i j h; rfl
  | cons t rest ih =>
      intro i j h
      rw [pass1Go]
      cases hc : cache t with
      | some v =>
          simp only
          rw [Function.update_noteq (by omega)]
          exact ih (i + 1) j (by omega)
      | none =>
          simp only
          exact ih (i + 1) j (by omega)

lemma pass1Go_value (cache : String → Option (List ℚ)) :
    ∀ (ts : List String) (i k : ℕ), k < ts.length →
      (pass1Go cache i ts).2 (i + k) = cache (ts.getD k "") := by
  intro ts
  induction ts with
  | nil => intro i k h; simp at h
  | cons t rest ih =>
      intro i k h
      rw [pass1Go]
      cases k with
      | zero =>
          cases hc : cache t with
          | some v =>
              simp only [Nat.add_zero, List.getD_cons_zero, hc]
              exact Function.update_same ..
          | none =>
              simp only [Nat.add_zero, List.getD_cons_zero, hc]
              exact pass1Go_support cache rest (i + 1) i (by omega)
      | succ k' =>
          have hk : k' < rest.length := by simpa using h
          have harith : i + (k' + 1) = (i + 1) + k' := by omega
          cases hc : cache t with
          | some v =>
              simp only [List.getD_cons_succ]
              rw [Function.update_noteq (by omega), harith]
              exact ih (i + 1) k' hk
          | none =>
              simp only [List.getD_cons_succ]
              rw [harith]
              exact ih (i + 1) k' hk

lemma pass1Go_needed_spec (cache : String → Option (List ℚ)) :
    ∀ (ts : List String) (i : ℕ),
      (∀ p ∈ (pass1Go cache i ts).1,
        cache p.2 = none ∧
          ∃ k, k < ts.length ∧ p.1 = i + k ∧ p.2 = ts.getD k "") ∧
      (pass1Go cache i ts).1.Pairwise (fun a b => a.1 < b.1) ∧
      (∀ p ∈ (pass1Go cache i ts).1, i ≤ p.1) := by
  intro ts
  induction ts with
  | nil => intro i; simp [pass1Go]
  | cons t rest ih =>
      intro i
      obtain ⟨ih1, ih2, ih3⟩ := ih (i + 1)
      rw [pass1Go]
      cases hc : cache t with
      | some v =>
          simp only
          refine ⟨?_, ih2, ?_⟩
          · intro p hp
            obtain ⟨h1, k, hk, hpk, hpt⟩ := ih1 p hp
            exact ⟨h1, k + 1, by simpa using hk, by omega, by simpa using hpt⟩
          · intro p hp
            exact le_trans (by omega) (ih3 p hp)
      | none =>
          simp only
          refine ⟨?_, ?_, ?_⟩
          · intro p hp
            rcases List.mem_cons.mp hp with rfl | hp2
            · exact ⟨hc, 0, by simp, by omega, by simp⟩
            · obtain ⟨h1, k, hk, hpk, hpt⟩ := ih1 p hp2
              exact ⟨h1, k + 1, by simpa using hk, by omega, by simpa using hpt⟩
          · rw [List.pairwise_cons]
            refine ⟨fun p hp => ?_, ih2⟩
            exact lt_of_lt_of_le (by omega) (ih3 p hp)
          · intro p hp
            rcases List.mem_cons.mp hp with rfl | hp2
            · exact le_refl _
            · exact le_trans (by omega) (ih3 p hp2)

lemma pass1Go_needed_mem (cache : String → Option (List ℚ)) :
    ∀ (ts : List String) (i k : ℕ), k < ts.length →
      cache (ts.getD k "") = none →
      (i + k, ts.getD k "") ∈ (pass1Go cache i ts).1 := by
  intro ts
  induction ts with
  | nil => intro i k h; simp at h
  | cons t rest ih =>
      intro i k h hc
      rw [pass1Go]
      cases k with
      | zero =>
          rw [List.getD_cons_zero] at hc ⊢
          rw [hc]
          simp
      | succ k' =>
          have hk : k' < rest.length := by simpa using h
          rw [List.getD_cons_succ] at hc ⊢
          have harith : i + (k' + 1) = (i + 1) + k' := by omega
          rw [harith]
          have hmem := ih (i + 1) k' hk hc
          cases hct : cache t with
          | some v => simpa using hmem
          | none => simpa using List.mem_cons_of_mem (i, t) hmem

lemma pass1Go_dispatched (cache : String → Option (List ℚ)) :
    ∀ (ts : List String) (i : ℕ),
      (pass1Go cache i ts).1.map Prod.snd =
        ts.filter fun t => (cache t).isNone := by
  intro ts
  induction ts with
  | nil => intro i; rfl
  | cons t rest ih =>
      intro i
      rw [pass1Go]
      cases hc : cache t with
      | some v =>
          simp only [List.filter_cons]
          rw [show ((cache t).isNone = false) from by simp [hc]]
          simpa using ih (i + 1)
      | none =>
          simp only [List.filter_cons]
          rw [show ((cache t).isNone = true) from by simp [hc]]
          simp only [if_pos]
          rw [List.map_cons]
          exact congrArg _ (ih (i + 1))

end Osgrep

namespace Osgrep

lemma foldl_update_untouched :
    ∀ (L : List ((ℕ × String) × List ℚ)) (r : ℕ → Option (List ℚ)) (j : ℕ),
      (∀ q ∈ L, q.1.1 ≠ j) →
      (L.foldl (fun (r : ℕ → Option (List ℚ)) q =>
        Function.update r q.1.1 (some q.2)) r) j = r j := by
  intro L
  induction L with
  | nil => intro r j h; rfl
  | cons q0 rest ih =>
      intro r j h
      rw [List.foldl_cons]
      rw [ih _ j (fun q hq => h q (List.mem_cons_of_mem _ hq))]
      exact Function.update_noteq (Ne.symm (h q0 (List.mem_cons_self _ _))) _ _

lemma foldl_update_hit :
    ∀ (L : List ((ℕ × String) × List ℚ)) (r : ℕ → Option (List ℚ))
      (q0 : (ℕ × String) × List ℚ),
      (L.map fun q => q.1.1).Nodup → q0 ∈ L →
      (L.foldl (fun (r : ℕ → Option (List ℚ)) q =>
        Function.update r q.1.1 (some q.2)) r) q0.1.1 = some q0.2 := by
  intro L
  induction L with
  | nil => intro r q0 hnd h; simp at h
  | cons p rest ih =>
      intro r q0 hnd hmem
      have hnd2 : p.1.1 ∉ rest.map (fun q => q.1.1) ∧
          (rest.map fun q => q.1.1).Nodup := by
        rw [List.map_cons] at hnd
        exact List.nodup_cons.mp hnd
      rw [List.foldl_cons]
      rcases List.mem_cons.mp hmem with rfl | hrest
      · rw [foldl_update_untouched rest _ q0.1.1 ?_]
        · exact Function.update_same ..
        · intro q hq hq0
          exact hnd2.1 (hq0 ▸ List.mem_map_of_mem (fun q => q.1.1) hq)
      · exact ih _ q0 hnd2.2 hrest

lemma zip_self_map {α γ : Type} (l : List α) (g : α → γ) :
    l.zip (l.map g) = l.map fun a => (a, g a) := by
  induction l with
  | nil => rfl
  | cons a rest ih => simp [List.zip_cons_cons, ih]

/-- C10: `getEmbeddings` returns exactly one vector per input text at the
matching index — a cached text's vector comes from the cache, an uncached
text's vector from the worker batch; the batch dispatched to the worker
pool is exactly the uncached texts; and when every text is cached no
worker request is made at all. -/
theorem C10_getEmbeddings_cache_first :
    ∀ (cache : String → Option (List ℚ)) (embed : String → List ℚ)
      (texts : List String),
      (getEmbeddings cache embed texts).1.length = texts.length ∧
      (∀ i : ℕ, i < texts.length →
        (getEmbeddings cache embed texts).1.getD i [] =
          (match cache (texts.getD i "") with
           | some v => v
           | none => embed (texts.getD i ""))) ∧
      (getEmbeddings cache embed texts).2 =
        (texts.filter fun t => (cache t).isNone) ∧
      ((∀ t ∈ texts, (cache t).isSome) →
        (getEmbeddings cache embed texts).2 = []) := by
  intro cache embed texts
  have hgetd : ∀ (f : ℕ → List ℚ) (i : ℕ), i < texts.length →
      (((List.range texts.length).map f).getD i []) = f i := by
    intro f i hi
    rw [List.getD_eq_getElem?_getD]
    simp [List.getElem?_map, List.getElem?_range, hi]
  have hdisp : (getEmbeddings cache embed texts).2 =
      texts.filter fun t => (cache t).isNone := by
    rw [getEmbeddings]
    by_cases hne : (pass1Go cache 0 texts).1.isEmpty
    · rw [if_pos hne]
      have := pass1Go_dispatched cache texts 0
      rw [List.isEmpty_iff.mp hne] at this
      exact this
    · rw [if_neg hne]
      exact pass1Go_dispatched cache texts 0
  refine ⟨?_, ?_, hdisp, ?_⟩
  · rw [getEmbeddings]
    by_cases hne : (pass1Go cache 0 texts).1.isEmpty <;>
      simp [hne]
  · intro i hi
    rw [getEmbeddings]
    by_cases hne : (pass1Go cache 0 texts).1.isEmpty
    · rw [if_pos hne]
      simp only
      rw [hgetd _ i hi]
      have hval := pass1Go_value cache texts 0 i hi
      rw [Nat.zero_add] at hval
      cases hc : cache (texts.getD i "") with
      | some v => rw [hval, hc]; rfl
      | none =>
          exfalso
          have hmem := pass1Go_needed_mem cache texts 0 i hi hc
          rw [List.isEmpty_iff.mp hne] at hmem
          simp at hmem
    · rw [if_neg hne]
      simp only
      rw [hgetd _ i hi]
      have hzip : (pass1Go cache 0 texts).1.zip
          (((pass1Go cache 0 texts).1.map Prod.snd).map embed) =
          (pass1Go cache 0 texts).1.map fun a => (a, embed a.2) := by
        rw [List.map_map]
        exact zip_self_map _ _
      rw [hzip]
      have hndidx : (((pass1Go cache 0 texts).1.map fun a => (a, embed a.2)).map
          fun q => q.1.1).Nodup := by
        rw [List.map_map]
        simp only [Function.comp_def]
        have hpw := (pass1Go_needed_spec cache texts 0).2.1
        exact (List.pairwise_map.mpr (hpw.imp fun h => h)).imp Nat.ne_of_lt
      cases hc : cache (texts.getD i "") with
      | some v =>
          rw [foldl_update_untouched _ _ i ?_]
          · have hval := pass1Go_value cache texts 0 i hi
            rw [Nat.zero_add] at hval
            rw [hval, hc]
            rfl
          · intro q hq
            obtain ⟨q0, hq0, rfl⟩ := List.mem_map.mp hq
            obtain ⟨hnone, k, hk, hidx, htext⟩ :=
              (pass1Go_needed_spec cache texts 0).1 q0 hq0
            intro heq
            have heq2 : q0.1 = i := heq
            have : q0.2 = texts.getD i "" := by
              rw [htext]
              congr 1
              omega
            rw [this, hc] at hnone
            exact Option.noConfusion hnone
      | none =>
          have hmem := pass1Go_needed_mem cache texts 0 i hi hc
          rw [Nat.zero_add] at hmem
          have hmem2 : (((i, texts.getD i ""), embed (texts.getD i "")) :
              (ℕ × String) × List ℚ) ∈
              (pass1Go cache 0 texts).1.map fun a => (a, embed a.2) :=
            List.mem_map_of_mem _ hmem
          have := foldl_update_hit _ (pass1Go cache 0 texts).2 _ hndidx hmem2
          rw [this]
          rfl
  · intro hall
    rw [hdisp]
    rw [List.filter_eq_nil_iff]
    intro t ht h
    rw [Option.isNone_iff_eq_none] at h
    have := hall t ht
    rw [h] at this
    simp at this

end Osgrep

namespace Osgrep

/-- A concrete cache for the C10 witness: only `"hit"` is cached. -/
def wcache : String → Option (List ℚ) := fun t => if t = "hit" then some [1] else none

/-- C10 (witness): the per-index and the all-cached clauses instantiated
on concrete inputs. -/
theorem C10_getEmbeddings_witness :
    (0 < (["hit", "miss"] : List String).length ∧
      (getEmbeddings wcache (fun _ => [2]) ["hit", "miss"]).1.getD 0 [] =
        (match wcache ((["hit", "miss"] : List String).getD 0 "") with
         | some v => v
         | none => (fun _ => ([2] : List ℚ))
             ((["hit", "miss"] : List String).getD 0 ""))) ∧
    ((∀ t ∈ (["hit"] : List String), (wcache t).isSome) ∧
      (getEmbeddings wcache (fun _ => [2]) ["hit"]).2 = []) :=
  ⟨⟨by decide,
    (C10_getEmbeddings_cache_first wcache (fun _ => [2]) ["hit", "miss"]).2.1 0
      (by decide)⟩,
   ⟨by decide,
    (C10_getEmbeddings_cache_first wcache (fun _ => [2]) ["hit"]).2.2.2
      (by decide)⟩⟩

end Osgrep
